import Mathlib

/-!
Verification development for the `tcpSocketIO` protocol engine
(`src/index.ts`, first/normative variant per the design notes; the second,
legacy variant in the file is superseded and out of scope).

The TypeScript source is shallowly embedded:
* JSON payload values are `JVal` (scalars as exercised by the wire format:
  `null`, booleans, integral numbers, strings, plus a marker for function
  values, which `JSON.stringify` serializes as `null` inside arrays).
  Nested arrays/objects are outside the modelled payload fragment.
* The codec (`JSON.stringify` / `JSON.parse`, the `/(\d+)(.*)/` frame regex,
  `String.prototype.trim`, `removeInvisibleSymbols`, the `/5#$%^2+=/`
  delimiter split) operates on `List Char`.
* The engine (`tcpSocketIO` class state) is `EngineState`; callbacks and
  listeners are identified by numeric ids and their invocations are recorded
  in an `invocations` log; socket writes are recorded in an `outbox`.
  `Math.random`-driven id generation is made explicit as a list of proposed
  draws (each a possible result of `randomNumber(0, 2147483647)`).
-/

namespace TcpEngine

/-- A JSON-serializable argument value as used on the wire: the scalar
fragment (`null`, booleans, integral numbers, strings) plus `jfun`, a marker
for a callable argument (`JSON.stringify` renders a function occurring inside
an array as `null`). -/
inductive JVal where
  | jnull : JVal
  | jbool : Bool → JVal
  | jnum : Int → JVal
  | jstr : String → JVal
  | jfun : Nat → JVal
deriving DecidableEq

/-- True on the plain data constructors; `jfun` (a callable) is excluded. -/
def JVal.isData : JVal → Bool
  | .jfun _ => false
  | _ => true

/-! ### Decimal digits -/

/-- The decimal digit character for `n < 10`. -/
def digitChar (n : Nat) : Char :=
  if n = 0 then '0' else if n = 1 then '1' else if n = 2 then '2'
  else if n = 3 then '3' else if n = 4 then '4' else if n = 5 then '5'
  else if n = 6 then '6' else if n = 7 then '7' else if n = 8 then '8'
  else '9'

/-- Worker for `natToChars`, structural on a fuel bound so that it
evaluates by kernel reduction. -/
def natToCharsAux : Nat → Nat → List Char
  | 0, _ => []
  | fuel + 1, n =>
    if n < 10 then [digitChar n]
    else natToCharsAux fuel (n / 10) ++ [digitChar (n % 10)]

/-- Decimal representation of a natural number, most significant digit
first, as printed by JavaScript for integers (no sign, no padding). -/
def natToChars (n : Nat) : List Char := natToCharsAux (n + 1) n

theorem natToCharsAux_stable :
    ∀ fuel fuel' n, n < fuel → n < fuel' →
      natToCharsAux fuel n = natToCharsAux fuel' n := by
  intro fuel
  induction fuel with
  | zero => omega
  | succ f ih =>
    intro fuel' n hf hf'
    cases fuel' with
    | zero => omega
    | succ f' =>
      rw [natToCharsAux, natToCharsAux]
      by_cases h10 : n < 10
      · simp [h10]
      · rw [if_neg h10, if_neg h10,
          ih f' (n / 10) (by omega) (by omega)]

/-- The defining recurrence of `natToChars`. -/
theorem natToChars_unfold (n : Nat) :
    natToChars n =
      if n < 10 then [digitChar n]
      else natToChars (n / 10) ++ [digitChar (n % 10)] := by
  rw [natToChars, natToCharsAux]
  by_cases h10 : n < 10
  · simp [h10]
  · rw [if_neg h10, if_neg h10, natToChars,
      natToCharsAux_stable n (n / 10 + 1) (n / 10)
        (by have := Nat.div_lt_self (show 0 < n by omega) (show 1 < 10 by omega); omega)
        (by omega)]

/-- Decimal representation of an integer as printed by JavaScript. -/
def intToChars (n : Int) : List Char :=
  if n < 0 then '-' :: natToChars n.natAbs else natToChars n.natAbs

/-- Leading digit run and remainder (the `\d+` behaviour at a position
where at least one digit matches). -/
def takeDigits (cs : List Char) : List Char × List Char :=
  (cs.takeWhile (fun c => c.isDigit), cs.dropWhile (fun c => c.isDigit))

/-- Numeric value of a digit run, as `Number` computes it for short digit
strings (the engine only ever generates ids below `2^31`, where the
JavaScript float is exact). -/
def digitsToNat (ds : List Char) : Nat :=
  ds.foldl (fun acc c => acc * 10 + (c.toNat - 48)) 0

theorem digitChar_toNat : ∀ n, n < 10 → (digitChar n).toNat = 48 + n := by decide

theorem digitChar_isDigit : ∀ n, n < 10 → (digitChar n).isDigit = true := by decide

theorem digitChar_ne_zero : ∀ n, n < 10 → n ≠ 0 → digitChar n ≠ '0' := by decide

theorem natToChars_ne_nil (n : Nat) : natToChars n ≠ [] := by
  rw [natToChars_unfold]
  split <;> simp

theorem natToChars_digits (n : Nat) : ∀ c ∈ natToChars n, c.isDigit = true := by
  induction n using Nat.strongRecOn with
  | ind n ih =>
    rw [natToChars_unfold]
    split
    next h =>
      simpa using digitChar_isDigit n h
    next h =>
      intro c hc
      rcases List.mem_append.mp hc with h1 | h1
      · exact ih (n / 10) (Nat.div_lt_self (by omega) (by omega)) c h1
      · rw [List.mem_singleton] at h1
        subst h1
        exact digitChar_isDigit _ (Nat.mod_lt _ (by omega))

theorem digitsToNat_append_last (ds : List Char) (c : Char) :
    digitsToNat (ds ++ [c]) = digitsToNat ds * 10 + (c.toNat - 48) := by
  simp [digitsToNat, List.foldl_append]

theorem digitsToNat_natToChars (n : Nat) : digitsToNat (natToChars n) = n := by
  induction n using Nat.strongRecOn with
  | ind n ih =>
    rw [natToChars_unfold]
    split
    next h =>
      simp [digitsToNat, digitChar_toNat n h]
    next h =>
      rw [digitsToNat_append_last, ih (n / 10) (Nat.div_lt_self (by omega) (by omega)),
        digitChar_toNat _ (Nat.mod_lt _ (by omega))]
      omega

theorem natToChars_head_pos (n : Nat) (hn : n ≠ 0) :
    ∀ c t, natToChars n = c :: t → c ≠ '0' := by
  induction n using Nat.strongRecOn with
  | ind n ih =>
    rw [natToChars_unfold]
    split
    next h =>
      intro c t hct
      rw [List.cons.injEq] at hct
      rcases hct with ⟨rfl, -⟩
      exact digitChar_ne_zero n h hn
    next h =>
      intro c t hct
      rcases hhead : natToChars (n / 10) with _ | ⟨c0, t0⟩
      · exact absurd hhead (natToChars_ne_nil _)
      · rw [hhead, List.cons_append, List.cons.injEq] at hct
        rcases hct with ⟨rfl, -⟩
        exact ih (n / 10) (Nat.div_lt_self (by omega) (by omega))
          (by omega) _ _ hhead

theorem takeDigits_of_digits (ds rest : List Char)
    (hds : ∀ c ∈ ds, c.isDigit = true)
    (hrest : ∀ c, rest.head? = some c → c.isDigit = false) :
    takeDigits (ds ++ rest) = (ds, rest) := by
  induction ds with
  | nil =>
    cases rest with
    | nil => rfl
    | cons c t =>
      have := hrest c rfl
      simp [takeDigits, List.takeWhile, List.dropWhile, this]
  | cons c t ih =>
    have hc := hds c (List.mem_cons_self _ _)
    have ht := ih (fun x hx => hds x (List.mem_cons_of_mem _ hx))
    rw [takeDigits] at ht ⊢
    simp only [Prod.mk.injEq] at ht
    simp [List.takeWhile, List.dropWhile, hc, ht.1, ht.2]

/-! ### Character classes -/

/-- Hex digit characters as emitted by `JSON.stringify` in `\u00xx`
escapes (lowercase). -/
def hexChar (n : Nat) : Char :=
  if n < 10 then digitChar n
  else if n = 10 then 'a' else if n = 11 then 'b' else if n = 12 then 'c'
  else if n = 13 then 'd' else if n = 14 then 'e' else 'f'

/-- Value of a hex digit character, `none` if not a hex digit. -/
def hexCharVal (c : Char) : Option Nat :=
  if c.isDigit then some (c.toNat - 48)
  else if 'a' ≤ c ∧ c ≤ 'f' then some (c.toNat - 97 + 10)
  else if 'A' ≤ c ∧ c ≤ 'F' then some (c.toNat - 65 + 10)
  else none

/-- JSON insignificant whitespace (what `JSON.parse` skips between tokens). -/
def isJsonWs (c : Char) : Bool :=
  c = ' ' ∨ c = '\t' ∨ c = '\n' ∨ c = '\r'

/-- The `trim` whitespace set of JavaScript strings (WhiteSpace plus
LineTerminator code points). -/
def isTrimWs (c : Char) : Bool :=
  c = ' ' ∨ c = '\t' ∨ c = '\n' ∨ c = '\x0b' ∨ c = '\x0c' ∨ c = '\r' ∨
  c.toNat = 0xa0 ∨ c.toNat = 0x1680 ∨
  (0x2000 ≤ c.toNat ∧ c.toNat ≤ 0x200a) ∨
  c.toNat = 0x2028 ∨ c.toNat = 0x2029 ∨ c.toNat = 0x202f ∨
  c.toNat = 0x205f ∨ c.toNat = 0x3000 ∨ c.toNat = 0xfeff

/-- JavaScript regex line terminators: `.` in `/(\d+)(.*)/` matches any
character except these. -/
def isLineTerm (c : Char) : Bool :=
  c = '\n' ∨ c = '\r' ∨ c.toNat = 0x2028 ∨ c.toNat = 0x2029

/-! ### `JSON.stringify` -/

/-- How `JSON.stringify` renders one character inside a string literal:
quote, backslash and the named control characters get two-character
escapes, the remaining C0 controls get `\u00xx`, and everything else
(including `/` and the delimiter's characters) passes through verbatim. -/
def escChar (c : Char) : List Char :=
  if c = '"' then ['\\', '"']
  else if c = '\\' then ['\\', '\\']
  else if c = '\x08' then ['\\', 'b']
  else if c = '\t' then ['\\', 't']
  else if c = '\n' then ['\\', 'n']
  else if c = '\x0c' then ['\\', 'f']
  else if c = '\r' then ['\\', 'r']
  else if c.toNat < 0x20 then
    ['\\', 'u', '0', '0', hexChar (c.toNat / 16), hexChar (c.toNat % 16)]
  else [c]

/-- Escaped body of a JSON string literal. -/
def escapeChars (cs : List Char) : List Char := (cs.map escChar).flatten

/-- `JSON.stringify` of a single array element. A function value becomes
`null` (that is what `JSON.stringify` does to callables inside arrays). -/
def stringifyVal : JVal → List Char
  | .jnull => ['n', 'u', 'l', 'l']
  | .jbool true => ['t', 'r', 'u', 'e']
  | .jbool false => ['f', 'a', 'l', 's', 'e']
  | .jnum n => intToChars n
  | .jstr s => '"' :: escapeChars s.toList ++ ['"']
  | .jfun _ => ['n', 'u', 'l', 'l']

/-- Elements of `JSON.stringify` of an array, including the closing
bracket (no whitespace is emitted, elements are comma-separated). -/
def stringifyElems : List JVal → List Char
  | [] => [']']
  | [v] => stringifyVal v ++ [']']
  | v :: vs => stringifyVal v ++ ',' :: stringifyElems vs

/-- `JSON.stringify` of the full argument array. -/
def stringifyArr (vs : List JVal) : List Char :=
  '[' :: stringifyElems vs

/-! ### `JSON.parse` (restricted to arrays of the scalar fragment)

A frame body outside this fragment (nested arrays/objects, fractional or
exponent numbers) is treated as a parse failure; in the source such frames
end in the same `catch` path or are not exercised by the claims. -/

/-- Skip JSON insignificant whitespace. -/
def skipWs : List Char → List Char
  | [] => []
  | c :: cs => if isJsonWs c then skipWs cs else c :: cs

/-- Decode a single-character JSON escape (`\"`, `\\`, `\/`, `\b`, `\f`,
`\n`, `\r`, `\t`); anything else is invalid. -/
def unescChar : Char → Option Char
  | '"' => some '"'
  | '\\' => some '\\'
  | '/' => some '/'
  | 'b' => some '\x08'
  | 'f' => some '\x0c'
  | 'n' => some '\n'
  | 'r' => some '\r'
  | 't' => some '\t'
  | _ => none

/-- Decode the escape following a backslash: either `uXXXX` or a
single-character escape. Returns the decoded character and the rest. -/
def unescStep (cs : List Char) : Option (Char × List Char) :=
  match cs with
  | 'u' :: h1 :: h2 :: h3 :: h4 :: r =>
    match hexCharVal h1, hexCharVal h2, hexCharVal h3, hexCharVal h4 with
    | some v1, some v2, some v3, some v4 =>
      some (Char.ofNat (((v1 * 16 + v2) * 16 + v3) * 16 + v4), r)
    | _, _, _, _ => none
  | e :: r => (unescChar e).map (fun c => (c, r))
  | [] => none

theorem unescStep_length {cs : List Char} {p : Char × List Char}
    (h : unescStep cs = some p) : p.2.length < cs.length := by
  rw [unescStep.eq_def] at h
  split at h
  · split at h
    · injection h with h
      subst h
      simp
      omega
    · simp at h
  · simp only [Option.map_eq_some'] at h
    obtain ⟨c, -, rfl⟩ := h
    simp
  · simp at h

/-- Parse the body of a JSON string literal, after the opening quote:
characters until an unescaped closing quote, decoding escapes; raw
control characters are invalid. Returns the decoded characters and the
input remaining after the closing quote. -/
def parseStrBody : List Char → Option (List Char × List Char)
  | [] => none
  | c :: rest =>
    if c = '"' then some ([], rest)
    else if c = '\\' then
      match rest with
      | [] => none
      | e :: r0 =>
        if e = 'u' then
          match r0 with
          | h1 :: h2 :: h3 :: h4 :: r =>
            match hexCharVal h1, hexCharVal h2, hexCharVal h3, hexCharVal h4 with
            | some v1, some v2, some v3, some v4 =>
              (parseStrBody r).map (fun p =>
                (Char.ofNat (((v1 * 16 + v2) * 16 + v3) * 16 + v4) :: p.1, p.2))
            | _, _, _, _ => none
          | _ => none
        else
          match unescChar e with
          | some c' => (parseStrBody r0).map (fun p => (c' :: p.1, p.2))
          | none => none
    else if c.toNat < 0x20 then none
    else (parseStrBody rest).map (fun p => (c :: p.1, p.2))

/-- Parse a nonempty run of digits as a JSON integer literal: rejects a
leading zero on a multi-digit run and any continuation that would make
the number fractional or exponential (the modelled fragment is integral).
Returns the value and the rest. -/
def parseIntDigits (cs : List Char) : Option (Nat × List Char) :=
  if (takeDigits cs).1 = [] then none
  else if (takeDigits cs).1.head? = some '0' ∧ (takeDigits cs).1.length ≠ 1 then none
  else if (takeDigits cs).2.head? = some '.' ∨ (takeDigits cs).2.head? = some 'e' ∨
      (takeDigits cs).2.head? = some 'E' then none
  else some (digitsToNat (takeDigits cs).1, (takeDigits cs).2)

/-- Parse one JSON value of the scalar fragment. -/
def parseVal (cs : List Char) : Option (JVal × List Char) :=
  if cs.take 4 = ['t', 'r', 'u', 'e'] then some (.jbool true, cs.drop 4)
  else if cs.take 5 = ['f', 'a', 'l', 's', 'e'] then some (.jbool false, cs.drop 5)
  else if cs.take 4 = ['n', 'u', 'l', 'l'] then some (.jnull, cs.drop 4)
  else
    match cs with
    | [] => none
    | c :: r =>
      if c = '"' then (parseStrBody r).map (fun p => (JVal.jstr (String.mk p.1), p.2))
      else if c = '-' then (parseIntDigits r).map (fun p => (JVal.jnum (-(p.1 : Int)), p.2))
      else (parseIntDigits (c :: r)).map (fun p => (JVal.jnum ((p.1 : Nat) : Int), p.2))

/-- Parse the comma-separated elements of a nonempty JSON array, up to and
including the closing bracket. Structural on a fuel bound. -/
def parseElemsAux : Nat → List Char → Option (List JVal × List Char)
  | 0, _ => none
  | fuel + 1, cs =>
    match parseVal cs with
    | none => none
    | some (v, r1) =>
      match skipWs r1 with
      | [] => none
      | c :: r2 =>
        if c = ']' then some ([v], r2)
        else if c = ',' then
          (parseElemsAux fuel (skipWs r2)).map (fun p => (v :: p.1, p.2))
        else none

/-- The array production after the opening bracket has been consumed:
either an immediately closing bracket (empty array) or a nonempty element
list; nothing but insignificant whitespace may follow the array. -/
def jsonParseArr : List Char → Option (List JVal)
  | [] => none
  | c1 :: r1 =>
    if c1 = ']' then (if skipWs r1 = [] then some [] else none)
    else
      match parseElemsAux (r1.length + 2) (c1 :: r1) with
      | some (vs, r2) => if skipWs r2 = [] then some vs else none
      | none => none

/-- The top-level JSON value (restricted to arrays) after leading
whitespace has been skipped. -/
def jsonParseTop : List Char → Option (List JVal)
  | [] => none
  | c :: r => if c = '[' then jsonParseArr (skipWs r) else none

/-- `JSON.parse` on the modelled fragment: a whitespace-padded array of
scalar values, and nothing but the array. -/
def jsonParse (cs : List Char) : Option (List JVal) :=
  jsonParseTop (skipWs cs)

/-! ### Codec round trip: `jsonParse (stringifyArr vs) = some vs` -/

theorem skipWs_cons_of_not_ws {c : Char} (h : isJsonWs c = false) (r : List Char) :
    skipWs (c :: r) = c :: r := by
  simp [skipWs, h]

theorem hexCharVal_hexChar : ∀ m, m < 16 → hexCharVal (hexChar m) = some m := by decide

theorem parseStrBody_escChar (c : Char) (rest : List Char) :
    parseStrBody (escChar c ++ rest) =
      (parseStrBody rest).map (fun p => (c :: p.1, p.2)) := by
  rw [escChar]
  split_ifs with h1 h2 h3 h4 h5 h6 h7 h8
  · subst h1
    simp only [List.cons_append, List.nil_append]
    rw [parseStrBody.eq_def]
    simp [unescChar]
  · subst h2
    simp only [List.cons_append, List.nil_append]
    rw [parseStrBody.eq_def]
    simp [unescChar]
  · subst h3
    simp only [List.cons_append, List.nil_append]
    rw [parseStrBody.eq_def]
    simp [unescChar]
  · subst h4
    simp only [List.cons_append, List.nil_append]
    rw [parseStrBody.eq_def]
    simp [unescChar]
  · subst h5
    simp only [List.cons_append, List.nil_append]
    rw [parseStrBody.eq_def]
    simp [unescChar]
  · subst h6
    simp only [List.cons_append, List.nil_append]
    rw [parseStrBody.eq_def]
    simp [unescChar]
  · subst h7
    simp only [List.cons_append, List.nil_append]
    rw [parseStrBody.eq_def]
    simp [unescChar]
  · simp only [List.cons_append, List.nil_append]
    rw [parseStrBody.eq_def]
    norm_num
    rw [if_neg (show ¬ ('\\' : Char) = '"' by decide)]
    simp only [show hexCharVal '0' = some 0 by rfl,
      hexCharVal_hexChar (c.toNat / 16) (by omega),
      hexCharVal_hexChar (c.toNat % 16) (by omega)]
    norm_num
    have hval : c.toNat / 16 * 16 + c.toNat % 16 = c.toNat := by omega
    simp only [hval, Char.ofNat_toNat]
  · simp only [List.cons_append, List.nil_append]
    rw [parseStrBody.eq_def]
    simp only [if_neg h1, if_neg h2, if_neg h8]

theorem parseStrBody_escapeChars (s : List Char) (rest : List Char) :
    parseStrBody (escapeChars s ++ '"' :: rest) = some (s, rest) := by
  induction s with
  | nil =>
    rw [escapeChars]
    simp only [List.map_nil, List.flatten_nil, List.nil_append]
    rw [parseStrBody.eq_def]
    simp
  | cons c t ih =>
    rw [escapeChars] at ih ⊢
    simp only [List.map_cons, List.flatten_cons, List.append_assoc]
    rw [parseStrBody_escChar, ih]
    rfl

theorem natToChars_cons (n : Nat) :
    ∃ c t, natToChars n = c :: t ∧ c.isDigit = true := by
  rcases h : natToChars n with - | ⟨c, t⟩
  · exact absurd h (natToChars_ne_nil n)
  · exact ⟨c, t, rfl, natToChars_digits n c (h ▸ List.mem_cons_self c t)⟩

/-- A remainder that cannot extend a parsed integer literal. -/
def NumBoundary (rest : List Char) : Prop :=
  ∀ c, rest.head? = some c →
    (c.isDigit = false ∧ c ≠ '.' ∧ c ≠ 'e' ∧ c ≠ 'E')

theorem parseIntDigits_natToChars (n : Nat) (rest : List Char)
    (hrest : NumBoundary rest) :
    parseIntDigits (natToChars n ++ rest) = some (n, rest) := by
  have htd := takeDigits_of_digits (natToChars n) rest (natToChars_digits n)
    (fun c hc => (hrest c hc).1)
  rw [parseIntDigits, htd]
  rw [if_neg (by simpa using natToChars_ne_nil n)]
  have hlz : ¬((natToChars n).head? = some '0' ∧ (natToChars n).length ≠ 1) := by
    rintro ⟨hh, hl⟩
    by_cases hn : n = 0
    · subst hn
      exact hl (by decide)
    · obtain ⟨c, t, hct, -⟩ := natToChars_cons n
      rw [hct] at hh
      simp only [List.head?_cons, Option.some.injEq] at hh
      exact natToChars_head_pos n hn c t hct hh
  rw [if_neg hlz]
  have hdot : ¬(rest.head? = some '.' ∨ rest.head? = some 'e' ∨
      rest.head? = some 'E') := by
    rintro (h | h | h)
    · exact (hrest _ h).2.1 rfl
    · exact (hrest _ h).2.2.1 rfl
    · exact (hrest _ h).2.2.2 rfl
  rw [if_neg hdot, digitsToNat_natToChars]

theorem parseVal_stringifyVal (v : JVal) (hv : v.isData = true) (rest : List Char)
    (hrest : rest.head? = some ',' ∨ rest.head? = some ']') :
    parseVal (stringifyVal v ++ rest) = some (v, rest) := by
  have hb : NumBoundary rest := by
    rcases hrest with h | h <;> intro c hc <;> rw [h] at hc <;>
      simp only [Option.some.injEq] at hc <;> subst hc <;> exact (by decide)
  cases v with
  | jnull =>
    rw [stringifyVal, parseVal.eq_def]
    simp
  | jbool b =>
    cases b <;> (rw [stringifyVal, parseVal.eq_def]; simp)
  | jfun fid => simp [JVal.isData] at hv
  | jstr s =>
    obtain ⟨sdata⟩ := s
    rw [stringifyVal, parseVal.eq_def]
    simp only [List.cons_append, List.append_assoc, List.nil_append]
    norm_num
    rw [parseStrBody_escapeChars]
    simp [String.toList]
  | jnum n =>
    rw [stringifyVal, intToChars]
    by_cases hneg : n < 0
    · rw [if_pos hneg]
      obtain ⟨c, t, hct, hcd⟩ := natToChars_cons n.natAbs
      rw [hct, parseVal.eq_def]
      simp only [List.cons_append]
      norm_num
      rw [← List.cons_append, ← hct, parseIntDigits_natToChars n.natAbs rest hb]
      simp only [Option.map_some']
      have habs : -(n.natAbs : Int) = n := by omega
      rw [habs]
      simp
    · rw [if_neg hneg]
      obtain ⟨c, t, hct, hcd⟩ := natToChars_cons n.natAbs
      have hnt : c ≠ 't' := fun h => by subst h; exact absurd hcd (by decide)
      have hnf : c ≠ 'f' := fun h => by subst h; exact absurd hcd (by decide)
      have hnn : c ≠ 'n' := fun h => by subst h; exact absurd hcd (by decide)
      have hnq : c ≠ '"' := fun h => by subst h; exact absurd hcd (by decide)
      have hnm : c ≠ '-' := fun h => by subst h; exact absurd hcd (by decide)
      rw [hct, parseVal.eq_def]
      simp only [List.cons_append]
      rw [if_neg (by
        intro hx
        rw [List.take_succ_cons, List.cons.injEq] at hx
        exact hnt hx.1)]
      rw [if_neg (by
        intro hx
        rw [List.take_succ_cons, List.cons.injEq] at hx
        exact hnf hx.1)]
      rw [if_neg (by
        intro hx
        rw [List.take_succ_cons, List.cons.injEq] at hx
        exact hnn hx.1)]
      rw [if_neg hnq, if_neg hnm]
      rw [← List.cons_append, ← hct, parseIntDigits_natToChars n.natAbs rest hb]
      simp only [Option.map_some']
      have habs : ((n.natAbs : Nat) : Int) = n := by omega
      rw [habs]

theorem digit_not_special (c : Char) (h : c.isDigit = true) :
    isJsonWs c = false ∧ c ≠ ']' := by
  constructor
  · rw [isJsonWs]
    simp only [decide_eq_false_iff_not]
    rintro (rfl | rfl | rfl | rfl) <;> exact absurd h (by decide)
  · rintro rfl
    exact absurd h (by decide)

theorem stringifyVal_head (v : JVal) :
    ∃ c t, stringifyVal v = c :: t ∧ isJsonWs c = false ∧ c ≠ ']' := by
  cases v with
  | jnull => exact ⟨'n', _, rfl, by decide, by decide⟩
  | jbool b =>
    cases b
    · exact ⟨'f', _, rfl, by decide, by decide⟩
    · exact ⟨'t', _, rfl, by decide, by decide⟩
  | jfun fid => exact ⟨'n', _, rfl, by decide, by decide⟩
  | jstr s => exact ⟨'"', _, rfl, by decide, by decide⟩
  | jnum n =>
    rw [stringifyVal, intToChars]
    by_cases hneg : n < 0
    · rw [if_pos hneg]
      exact ⟨'-', _, rfl, by decide, by decide⟩
    · rw [if_neg hneg]
      obtain ⟨c, t, hct, hcd⟩ := natToChars_cons n.natAbs
      obtain ⟨h1, h2⟩ := digit_not_special c hcd
      exact ⟨c, t, hct, h1, h2⟩

theorem stringifyElems_cons (v : JVal) (vs : List JVal) :
    ∃ x, stringifyElems (v :: vs) = stringifyVal v ++ x := by
  cases vs with
  | nil => exact ⟨[']'], rfl⟩
  | cons w ws => exact ⟨',' :: stringifyElems (w :: ws), rfl⟩

theorem stringifyVal_length_pos (v : JVal) : 1 ≤ (stringifyVal v).length := by
  obtain ⟨c, t, hct, -, -⟩ := stringifyVal_head v
  rw [hct]
  simp

theorem stringifyElems_length (vs : List JVal) :
    vs.length ≤ (stringifyElems vs).length := by
  induction vs with
  | nil => simp [stringifyElems]
  | cons v vs ih =>
    cases vs with
    | nil =>
      have := stringifyVal_length_pos v
      rw [show stringifyElems [v] = stringifyVal v ++ [']'] from rfl]
      simp only [List.length_append, List.length_cons, List.length_nil]
      omega
    | cons w ws =>
      have := stringifyVal_length_pos v
      rw [show stringifyElems (v :: w :: ws) =
        stringifyVal v ++ ',' :: stringifyElems (w :: ws) from rfl]
      simp only [List.length_append, List.length_cons] at ih ⊢
      omega

theorem parseElemsAux_stringifyElems :
    ∀ (vs : List JVal) (fuel : Nat) (tail : List Char),
      vs ≠ [] → vs.length ≤ fuel → (∀ v ∈ vs, v.isData = true) →
      parseElemsAux fuel (stringifyElems vs ++ tail) = some (vs, tail) := by
  intro vs
  induction vs with
  | nil =>
    intro fuel tail hne hfuel hdata
    exact absurd rfl hne
  | cons v vs ih =>
    intro fuel tail hne hfuel hdata
    obtain ⟨f, rfl⟩ : ∃ f, fuel = f + 1 := by
      cases fuel
      · simp at hfuel
      · exact ⟨_, rfl⟩
    have hdv : v.isData = true := hdata v (List.mem_cons_self _ _)
    cases vs with
    | nil =>
      rw [stringifyElems, parseElemsAux, List.append_assoc, List.cons_append,
        List.nil_append,
        parseVal_stringifyVal v hdv (']' :: tail) (Or.inr rfl)]
      simp [skipWs_cons_of_not_ws, isJsonWs]
    | cons w ws =>
      rw [show stringifyElems (v :: w :: ws) =
          stringifyVal v ++ ',' :: stringifyElems (w :: ws) from rfl,
        List.append_assoc, List.cons_append, parseElemsAux,
        parseVal_stringifyVal v hdv
          (',' :: (stringifyElems (w :: ws) ++ tail)) (Or.inl rfl)]
      obtain ⟨c1, t1, hct1, hws1⟩ :
          ∃ c1 t1, stringifyElems (w :: ws) ++ tail = c1 :: t1 ∧
            isJsonWs c1 = false := by
        obtain ⟨x, hx⟩ := stringifyElems_cons w ws
        obtain ⟨c1, t1, hct1, hws1, -⟩ := stringifyVal_head w
        exact ⟨c1, t1 ++ x ++ tail, by simp [hx, hct1], hws1⟩
      simp only [skipWs_cons_of_not_ws (show isJsonWs ',' = false by decide)]
      rw [hct1, skipWs_cons_of_not_ws hws1, ← hct1,
        ih f tail (by simp) (by simpa using hfuel)
          (fun x hx => hdata x (List.mem_cons_of_mem _ hx))]
      simp

/-- Round trip of the JSON payload codec on the scalar fragment. -/
theorem jsonParse_stringifyArr (vs : List JVal)
    (hdata : ∀ v ∈ vs, v.isData = true) :
    jsonParse (stringifyArr vs) = some vs := by
  cases vs with
  | nil => decide
  | cons v vs' =>
    rw [stringifyArr, jsonParse, skipWs_cons_of_not_ws (by decide),
      jsonParseTop, if_pos rfl]
    obtain ⟨x, hx⟩ := stringifyElems_cons v vs'
    obtain ⟨c1, t1, hct1, hws1, hne1⟩ := stringifyVal_head v
    have hform : stringifyElems (v :: vs') = c1 :: (t1 ++ x) := by
      rw [hx, hct1]
      simp
    rw [hform, skipWs_cons_of_not_ws hws1, jsonParseArr, if_neg hne1, ← hform]
    have hfuel : (v :: vs').length ≤ (t1 ++ x).length + 2 := by
      have h1 := stringifyElems_length (v :: vs')
      have h2 : (stringifyElems (v :: vs')).length = (t1 ++ x).length + 1 := by
        rw [hform]
        simp
      omega
    have hpe := parseElemsAux_stringifyElems (v :: vs')
      ((t1 ++ x).length + 2) [] (by simp) hfuel hdata
    rw [List.append_nil] at hpe
    rw [hpe]
    simp [skipWs]

/-- A string payload free of the U+2028/U+2029 line separators (the two
code points that `JSON.stringify` leaves unescaped although the regex
`.` refuses to cross them). -/
def JVal.noLineSep : JVal → Prop
  | .jstr s => ∀ c ∈ s.toList, c.toNat ≠ 0x2028 ∧ c.toNat ≠ 0x2029
  | _ => True

instance : DecidablePred JVal.noLineSep := by
  intro v
  cases v <;> simp only [JVal.noLineSep] <;> infer_instance

/-! ### Frame codec: the `/(\d+)(.*)/` regex, `trim`, NUL removal, and the
stream delimiter -/

/-- The match of `/(\d+)(.*)/` against a message (line 90-92): `none` when
the text contains no digit at all (`match` is `null`); otherwise the
regex matches at the first digit: the text before the first digit run is
skipped, capture 1 is the maximal digit run there, and capture 2 is the
following text up to the next line terminator (`.` does not cross line
terminators). Returned as (skipped prefix, digit run, capture 2). -/
def regexSplit : List Char → Option (List Char × List Char × List Char)
  | [] => none
  | c :: cs =>
    if c.isDigit then
      some ([], (takeDigits (c :: cs)).1,
        ((takeDigits (c :: cs)).2).takeWhile (fun x => !(isLineTerm x)))
    else
      (regexSplit cs).map (fun p => (c :: p.1, p.2.1, p.2.2))

/-- `String.prototype.trim` on both ends. -/
def trimList (cs : List Char) : List Char :=
  ((cs.dropWhile isTrimWs).reverse.dropWhile isTrimWs).reverse

/-- `removeInvisibleSymbols` (lines 270-272): strip every NUL. -/
def removeInvisibleSymbols (cs : List Char) : List Char :=
  cs.filter (fun c => c ≠ '\x00')

/-- The decode prefix of `messageHandler` (lines 88-98): regex split,
`Number` on the digit run (never NaN on a digit run, so the `isNaN`
branch is dead code), `trim`, NUL removal, `JSON.parse`. `none` is a
decode error: the engine logs and discards the message. -/
def decodeMessage (msg : List Char) : Option (Nat × List JVal) :=
  match regexSplit msg with
  | none => none
  | some (_, ds, rest) =>
    match jsonParse (removeInvisibleSymbols (trimList rest)) with
    | none => none
    | some vs => some (digitsToNat ds, vs)

/-- The wire delimiter `'/5#$%^2+=/'` (line 20). -/
def delim : List Char := ['/', '5', '#', '$', '%', '^', '2', '+', '=', '/']

/-- Extend the first split piece with one more leading character. -/
def consHead (c : Char) : List (List Char) → List (List Char)
  | [] => [[c]]
  | p :: ps => (c :: p) :: ps

/-- Worker for `splitOnDelim`, fuel-structural (fuel bounds the input
length; every step consumes at least one character). -/
def splitOnDelimAux : Nat → List Char → List (List Char)
  | 0, cs => [cs]
  | fuel + 1, cs =>
    if cs.take 10 = delim then [] :: splitOnDelimAux fuel (cs.drop 10)
    else
      match cs with
      | [] => [[]]
      | c :: rest => consHead c (splitOnDelimAux fuel rest)

/-- `message.split(splitterRegex)` (line 130): split the received text on
every occurrence of the delimiter token. -/
def splitOnDelim (cs : List Char) : List (List Char) :=
  splitOnDelimAux cs.length cs

/-- The decode half of the inbound data path (lines 128-135): split the
received text on the delimiter, skip empty pieces (falsy strings), and
decode each piece. -/
def inboundDecode (buffer : List Char) : List (Option (Nat × List JVal)) :=
  ((splitOnDelim buffer).filter (fun m => m ≠ [])).map decodeMessage

/-! ### The engine state -/

/-- One recorded invocation of an application-supplied callable.
Listeners and callbacks are identified by numeric ids; the connection
argument is recorded by its client id. -/
inductive Invocation where
  | listener : Nat → String → List JVal → Invocation
  | allListener : Nat → String → Option JVal → List JVal → Invocation
  | respCallback : Nat → List JVal → Invocation
  | disconnectCb : Nat → String → String → Invocation
deriving DecidableEq

/-- The mutable state of one `tcpSocketIO` instance (lines 23-42), plus
two observation logs: `invocations` records every call into
application-supplied callables, `outbox` records every socket write as
(client id, wire text). Maps are insertion-ordered association lists,
matching the iteration order of JavaScript `Map`. -/
structure EngineState where
  listening : Bool
  clients : List String
  messagesCallbacks : List (Nat × Nat)
  listeners : List (String × List Nat)
  allListeners : List Nat
  connectCallbacks : List Nat
  disconnectCallbacks : List Nat
  invocations : List Invocation
  outbox : List (String × List Char)
deriving DecidableEq

/-- `Map.set` on an association list: replace in place when the key is
present (JavaScript `Map.set` keeps the original insertion position),
append otherwise. -/
def setEntry {β : Type} (k : Nat) (v : β) (m : List (Nat × β)) : List (Nat × β) :=
  if (m.lookup k).isSome then
    m.map (fun p => if p.1 = k then (k, v) else p)
  else m ++ [(k, v)]

/-- `Map.set` with string keys. -/
def setEntryS {β : Type} (k : String) (v : β) (m : List (String × β)) :
    List (String × β) :=
  if (m.lookup k).isSome then
    m.map (fun p => if p.1 = k then (k, v) else p)
  else m ++ [(k, v)]

/-- `Map.delete` on an association list. -/
def eraseEntry {β : Type} (k : Nat) (m : List (Nat × β)) : List (Nat × β) :=
  m.filter (fun p => p.1 ≠ k)

/-- Record an invocation of an application callable. -/
def pushInvoc (i : Invocation) (s : EngineState) : EngineState :=
  { s with invocations := s.invocations ++ [i] }

/-- What a modelled listener body does when invoked, beyond running its
own application code: nothing, or a call to `off` (the self-removal a
`once` wrapper performs before delegating is `offL` on its own id and
event). -/
inductive LAction where
  | noop : LAction
  | offL : String → Nat → LAction
deriving DecidableEq

/-- `splice(indexOf(x), 1)`: remove the first occurrence, keep the rest. -/
def removeFirst (lid : Nat) : List Nat → List Nat
  | [] => []
  | x :: xs => if x = lid then xs else x :: removeFirst lid xs

/-- `off(eventName, listener)` (lines 224-230): no-op when the event has
no listener list or the listener is absent (`indexOf` returns -1);
otherwise splice out the first occurrence in place. -/
def offE (e : String) (lid : Nat) (s : EngineState) : EngineState :=
  match s.listeners.lookup e with
  | none => s
  | some l => { s with listeners := setEntryS e (removeFirst lid l) s.listeners }

/-- Run a listener action against the engine state. -/
def applyAction : LAction → EngineState → EngineState
  | .noop, s => s
  | .offL e lid, s => offE e lid s

/-! ### `Array.prototype.forEach` over a live array

`forEach` fixes the iteration bound at the array's length on entry, but
reads the element at each index from the live array; an index removed by
a `splice` during iteration no longer exists and is skipped. The arrays
here are hole-free (all mutation is `splice`/`push`), so index `k`
exists exactly when `k < length`. -/

def jsForEachAux (get : EngineState → List Nat)
    (visit : Nat → EngineState → EngineState) :
    Nat → Nat → EngineState → EngineState
  | 0, _, s => s
  | fuel + 1, k, s =>
    if h : k < (get s).length then
      jsForEachAux get visit fuel (k + 1) (visit ((get s).get ⟨k, h⟩) s)
    else
      jsForEachAux get visit fuel (k + 1) s

def jsForEach (get : EngineState → List Nat)
    (visit : Nat → EngineState → EngineState) (s : EngineState) : EngineState :=
  jsForEachAux get visit (get s).length 0 s

/-! ### Engine operations -/

/-- The id-allocation loop of `sendTo` (lines 182-185): take a draw of
`randomNumber(0, 2147483647)` (uniform on `[0, 2^31-1]`); retry while the
draw is positive and collides with a pending id; a draw that is `0` or
collision-free is kept. The draws are an explicit list; `none` models
exhausting the supplied draws, which real randomness never does. -/
def allocId (table : List (Nat × Nat)) : List Nat → Option Nat
  | [] => none
  | r :: rest =>
    if r > 0 ∧ (table.lookup r).isSome then allocId table rest else some r

/-- `sendTo(clientId, ...message)` (lines 174-205). The trailing-callable
extraction has already happened: `args` is the remaining argument list
and `cb` the extracted response handler, if any. Order as in the source:
server-running check; id allocation only when a handler is present (else
id `0`); encoding; unknown-client check (before the handler is stored!);
handler stored under the id; write. The 5000 ms expiry timer scheduled
here is modelled as the separate `timeoutFire` event. -/
def sendTo (s : EngineState) (rand : List Nat) (clientId : String)
    (args : List JVal) (cb : Option Nat) : Option EngineState :=
  if ¬ s.listening then some s
  else
    let idOpt := match cb with
      | none => some 0
      | some _ => allocId s.messagesCallbacks rand
    match idOpt with
    | none => none
    | some messageId =>
      let wire := natToChars messageId ++ stringifyArr args ++ delim
      if ¬ s.clients.contains clientId then some s
      else
        let s1 := match cb with
          | none => s
          | some c =>
            { s with messagesCallbacks := setEntry messageId c s.messagesCallbacks }
        some { s1 with outbox := s1.outbox ++ [(clientId, wire)] }

/-- `send(...message)` (lines 161-172): broadcast. No trailing-callable
extraction, no correlation id allocation: the frame always carries id
`0`, and every connected client is written to in registry order. -/
def send (s : EngineState) (args : List JVal) : EngineState :=
  if ¬ s.listening then s
  else
    let wire := '0' :: stringifyArr args ++ delim
    { s with outbox := s.outbox ++ s.clients.map (fun c => (c, wire)) }

/-- The expiry of the 5000 ms timer scheduled by `sendTo` (lines 193-197):
delete the table entry only if the id is still present and still maps to
the same handler object. -/
def timeoutFire (messageId cb : Nat) (s : EngineState) : EngineState :=
  match s.messagesCallbacks.lookup messageId with
  | none => s
  | some c =>
    if c = cb then
      { s with messagesCallbacks := eraseEntry messageId s.messagesCallbacks }
    else s

/-- The positive-id half of `messageHandler` (lines 100-105): when the
id has a pending handler, invoke it with the decoded arguments and then
delete the table entry; a stale or unknown id is silently dropped. -/
def handleResp (mid : Nat) (decoded : List JVal) (s : EngineState) : EngineState :=
  match s.messagesCallbacks.lookup mid with
  | none => s
  | some cb =>
    let s1 := pushInvoc (.respCallback cb decoded) s
    { s1 with messagesCallbacks := eraseEntry mid s1.messagesCallbacks }

/-- The name-specific half of broadcast dispatch (lines 112-115): only
when the shifted event name is a string with a registered listener list;
iterate that list with live-array `forEach`. -/
def handleNamed (beh : Nat → LAction) (clientId : String) (args : List JVal)
    (ev : Option JVal) (s1 : EngineState) : EngineState :=
  match ev with
  | some (.jstr e) =>
    if (s1.listeners.lookup e).isSome then
      jsForEach (fun st => (st.listeners.lookup e).getD [])
        (fun lid st =>
          applyAction (beh lid) (pushInvoc (.listener lid clientId args) st)) s1
    else s1
  | _ => s1

/-- The id-0 half of `messageHandler` (lines 107-115): `shift` the event
name off the decoded array (`none` when the array is empty, possibly a
non-string value); answer `'ping'` with a fire-and-forget `'pong'` before
any listener runs; otherwise run every wildcard listener, then the
name-specific list. -/
def handleBroadcast (beh : Nat → LAction) (clientId : String)
    (decoded : List JVal) (s : EngineState) : EngineState :=
  if decoded.head? = some (.jstr "ping") then
    match sendTo s [] clientId [.jstr "pong"] none with
    | some s1 => s1
    | none => s
  else
    handleNamed beh clientId decoded.tail decoded.head?
      (jsForEach (fun st => st.allListeners)
        (fun lid st =>
          applyAction (beh lid)
            (pushInvoc (.allListener lid clientId decoded.head? decoded.tail) st)) s)

/-- `messageHandler(socket, message)` (lines 88-119): decode, then either
the response path (positive id) or the broadcast path (id 0). A decode
error is logged and the message discarded with no state change. -/
def messageHandler (beh : Nat → LAction) (clientId : String) (msg : List Char)
    (s : EngineState) : EngineState :=
  match decodeMessage msg with
  | none => s
  | some (mid, decoded) =>
    if mid > 0 then handleResp mid decoded s
    else handleBroadcast beh clientId decoded s

theorem messageHandler_none (beh : Nat → LAction) (c : String) (msg : List Char)
    (s : EngineState) (h : decodeMessage msg = none) :
    messageHandler beh c msg s = s := by
  rw [messageHandler.eq_def, h]

theorem messageHandler_some (beh : Nat → LAction) (c : String) (msg : List Char)
    (s : EngineState) (mid : Nat) (decoded : List JVal)
    (h : decodeMessage msg = some (mid, decoded)) :
    messageHandler beh c msg s =
      if mid > 0 then handleResp mid decoded s
      else handleBroadcast beh c decoded s := by
  rw [messageHandler.eq_def, h]

/-- The `'data'` handler installed by `start` (lines 128-135): split the
received text on the delimiter, skip falsy (empty) pieces, and feed each
piece to `messageHandler` in order. -/
def processInbound (beh : Nat → LAction) (clientId : String) (buffer : List Char)
    (s : EngineState) : EngineState :=
  ((splitOnDelim buffer).filter (fun m => m ≠ [])).foldl
    (fun st m => messageHandler beh clientId m st) s

/-- The per-socket fields the engine mutates (`clientId`, `ping`, the
heartbeat interval handle, lines 11-17 and 50-53). -/
structure Sock where
  clientId : String
  ping : Int
  hasTimer : Bool
deriving DecidableEq

/-- `clientDisconnecHandler(socket, reason)` (lines 73-86): if the
socket's client id is not registered, log an error and do nothing;
otherwise invoke every disconnect callback with the socket and reason,
then delete the registry entry, clear the socket's id and ping, and
cancel its heartbeat interval. -/
def clientDisconnecHandler (s : EngineState) (k : Sock) (reason : String) :
    EngineState × Sock :=
  if ¬ s.clients.contains k.clientId then (s, k)
  else
    let s1 := s.disconnectCallbacks.foldl
      (fun st cb => pushInvoc (.disconnectCb cb k.clientId reason) st) s
    let s2 := { s1 with clients := s1.clients.filter (fun x => x ≠ k.clientId) }
    (s2, { clientId := "", ping := -1, hasTimer := false })

/-! ### Reference-level model of the client registry

`getClients` (lines 247-249) returns `this.clients` itself — the `Map`
object, not a copy — and `stop` (lines 154-159) runs
`this.clients.clear()` on that same object. To state what the caller of
`getClients` can observe, registry `Map` objects live in an explicit
heap and `getClients` returns a reference into it. -/
structure RegistryRefs where
  heap : List (List String)
  clientsRef : Nat
  listening : Bool
deriving DecidableEq

/-- `getClients()`: returns the registry `Map` itself (a reference). -/
def getClients (s : RegistryRefs) : Nat := s.clientsRef

/-- Read a `Map` object through a reference. -/
def derefMap (s : RegistryRefs) (r : Nat) : List String := s.heap.getD r []

/-- `stop()` (lines 154-159): error and no-op when not listening; else
close the listener and `clear()` the registry `Map` in place. -/
def stop (s : RegistryRefs) : RegistryRefs :=
  if ¬ s.listening then s
  else { s with heap := s.heap.set s.clientsRef [], listening := false }

/-! ### Wire-safety of `JSON.stringify` output and the frame round trip -/

theorem hexChar_safe : ∀ m, m < 16 →
    hexChar m ≠ '\x00' ∧ isLineTerm (hexChar m) = false := by decide

theorem digit_bounds (c : Char) (h : c.isDigit = true) :
    48 ≤ c.toNat ∧ c.toNat ≤ 57 := by
  simp only [Char.isDigit, ge_iff_le, Bool.and_eq_true, decide_eq_true_eq] at h
  exact ⟨h.1, h.2⟩

theorem digit_safe (c : Char) (h : c.isDigit = true) :
    c ≠ '\x00' ∧ isLineTerm c = false := by
  have hb := digit_bounds c h
  constructor
  · rintro rfl
    exact absurd h (by decide)
  · rw [isLineTerm]
    simp only [decide_eq_false_iff_not]
    rintro (rfl | rfl | hc | hc)
    · exact absurd h (by decide)
    · exact absurd h (by decide)
    · omega
    · omega

theorem escChar_safe (c : Char)
    (hc : c.toNat ≠ 0x2028 ∧ c.toNat ≠ 0x2029) :
    ∀ x ∈ escChar c, x ≠ '\x00' ∧ isLineTerm x = false := by
  rw [escChar]
  split_ifs with h1 h2 h3 h4 h5 h6 h7 h8 <;> intro x hx <;>
    simp only [List.mem_cons, List.not_mem_nil, or_false] at hx
  · rcases hx with rfl | rfl <;> decide
  · rcases hx with rfl | rfl <;> decide
  · rcases hx with rfl | rfl <;> decide
  · rcases hx with rfl | rfl <;> decide
  · rcases hx with rfl | rfl <;> decide
  · rcases hx with rfl | rfl <;> decide
  · rcases hx with rfl | rfl <;> decide
  · rcases hx with rfl | rfl | rfl | rfl | rfl | rfl
    · decide
    · decide
    · decide
    · decide
    · exact hexChar_safe _ (by omega)
    · exact hexChar_safe _ (by omega)
  · subst hx
    constructor
    · rintro rfl
      exact h8 (by decide)
    · rw [isLineTerm]
      simp only [decide_eq_false_iff_not]
      rintro (rfl | rfl | h | h)
      · exact h5 rfl
      · exact h7 rfl
      · exact hc.1 h
      · exact hc.2 h

theorem stringifyVal_safe (v : JVal) (hv : v.noLineSep) :
    ∀ x ∈ stringifyVal v, x ≠ '\x00' ∧ isLineTerm x = false := by
  cases v with
  | jnull => decide
  | jfun fid =>
    rw [show stringifyVal (JVal.jfun fid) = ['n', 'u', 'l', 'l'] from rfl]
    decide
  | jbool b => cases b <;> decide
  | jnum n =>
    rw [stringifyVal, intToChars]
    split_ifs with hneg
    · intro x hx
      rcases List.mem_cons.mp hx with rfl | hx
      · exact (by decide)
      · exact digit_safe x (natToChars_digits _ x hx)
    · intro x hx
      exact digit_safe x (natToChars_digits _ x hx)
  | jstr str =>
    rw [stringifyVal]
    intro x hx
    rcases List.mem_cons.mp hx with rfl | hx
    · exact (by decide)
    · rcases List.mem_append.mp hx with hx | hx
      · rw [escapeChars] at hx
        rw [List.mem_flatten] at hx
        obtain ⟨l, hl, hxl⟩ := hx
        rw [List.mem_map] at hl
        obtain ⟨c, hcs, rfl⟩ := hl
        exact escChar_safe c (hv c hcs) x hxl
      · rw [List.mem_singleton] at hx
        subst hx
        exact (by decide)

theorem stringifyElems_safe (vs : List JVal) (hv : ∀ v ∈ vs, v.noLineSep) :
    ∀ x ∈ stringifyElems vs, x ≠ '\x00' ∧ isLineTerm x = false := by
  induction vs with
  | nil => decide
  | cons v vs ih =>
    have hsv := stringifyVal_safe v (hv v (List.mem_cons_self _ _))
    have ih' := ih (fun w hw => hv w (List.mem_cons_of_mem _ hw))
    cases vs with
    | nil =>
      rw [show stringifyElems [v] = stringifyVal v ++ [']'] from rfl]
      intro x hx
      rcases List.mem_append.mp hx with hx | hx
      · exact hsv x hx
      · rw [List.mem_singleton] at hx
        subst hx
        exact (by decide)
    | cons w ws =>
      rw [show stringifyElems (v :: w :: ws) =
        stringifyVal v ++ ',' :: stringifyElems (w :: ws) from rfl]
      intro x hx
      rcases List.mem_append.mp hx with hx | hx
      · exact hsv x hx
      · rcases List.mem_cons.mp hx with rfl | hx
        · exact (by decide)
        · exact ih' x hx

theorem stringifyArr_safe (vs : List JVal) (hv : ∀ v ∈ vs, v.noLineSep) :
    ∀ x ∈ stringifyArr vs, x ≠ '\x00' ∧ isLineTerm x = false := by
  rw [stringifyArr]
  intro x hx
  rcases List.mem_cons.mp hx with rfl | hx
  · exact (by decide)
  · exact stringifyElems_safe vs hv x hx

theorem takeWhile_all_eq {p : Char → Bool} :
    ∀ l : List Char, (∀ c ∈ l, p c = true) → l.takeWhile p = l
  | [], _ => rfl
  | c :: t, h => by
    rw [List.takeWhile_cons, if_pos (h c (List.mem_cons_self _ _)),
      takeWhile_all_eq t (fun x hx => h x (List.mem_cons_of_mem _ hx))]

theorem stringifyElems_last (vs : List JVal) :
    ∃ pre, stringifyElems vs = pre ++ [']'] := by
  induction vs with
  | nil => exact ⟨[], rfl⟩
  | cons v vs ih =>
    cases vs with
    | nil => exact ⟨stringifyVal v, rfl⟩
    | cons w ws =>
      obtain ⟨pre, hpre⟩ := ih
      refine ⟨stringifyVal v ++ ',' :: pre, ?_⟩
      rw [show stringifyElems (v :: w :: ws) =
        stringifyVal v ++ ',' :: stringifyElems (w :: ws) from rfl, hpre]
      simp

theorem trimList_stringifyArr (vs : List JVal) :
    trimList (stringifyArr vs) = stringifyArr vs := by
  obtain ⟨pre, hpre⟩ := stringifyElems_last vs
  rw [stringifyArr, hpre, trimList]
  rw [List.dropWhile_cons, if_neg (by decide)]
  rw [show ('[' :: (pre ++ [']'])).reverse = ']' :: (pre.reverse ++ ['[']) by simp]
  rw [List.dropWhile_cons, if_neg (by decide)]
  simp

theorem removeInvisibleSymbols_stringifyArr (vs : List JVal)
    (hv : ∀ v ∈ vs, v.noLineSep) :
    removeInvisibleSymbols (stringifyArr vs) = stringifyArr vs := by
  rw [removeInvisibleSymbols, List.filter_eq_self]
  intro x hx
  simp only [decide_eq_true_eq]
  exact (stringifyArr_safe vs hv x hx).1

/-- Decoding one well-formed broadcast frame (as `send` encodes it,
before the delimiter is appended) recovers id `0` and the arguments. -/
theorem decodeMessage_frame (args : List JVal)
    (hdata : ∀ v ∈ args, v.isData = true)
    (hclean : ∀ v ∈ args, v.noLineSep) :
    decodeMessage ('0' :: stringifyArr args) = some (0, args) := by
  rw [decodeMessage, regexSplit]
  rw [if_pos (by decide)]
  have htd : takeDigits ('0' :: stringifyArr args) = (['0'], stringifyArr args) := by
    have := takeDigits_of_digits ['0'] (stringifyArr args) (by decide)
      (fun c hc => by
        rw [stringifyArr] at hc
        simp only [List.head?_cons, Option.some.injEq] at hc
        subst hc
        decide)
    simpa using this
  rw [htd]
  have htw : (stringifyArr args).takeWhile (fun x => !(isLineTerm x)) =
      stringifyArr args :=
    takeWhile_all_eq _ (fun c hc => by
      rw [Bool.not_eq_true']
      exact (stringifyArr_safe args hclean c hc).2)
  simp only [htw]
  rw [trimList_stringifyArr, removeInvisibleSymbols_stringifyArr args hclean,
    jsonParse_stringifyArr args hdata]
  rfl

/-- No occurrence of the delimiter token strictly before the terminal
appended one. -/
def noEarlyDelim (m : List Char) : Prop :=
  ∀ i, i < m.length → ((m ++ delim).drop i).take 10 ≠ delim

instance (m : List Char) : Decidable (noEarlyDelim m) := by
  rw [noEarlyDelim]
  infer_instance

theorem splitOnDelimAux_nil : ∀ f, splitOnDelimAux f [] = [[]] := by
  intro f
  cases f with
  | zero => rfl
  | succ f => rw [splitOnDelimAux, if_neg (by decide)]

theorem splitOnDelimAux_append :
    ∀ (m : List Char) (fuel : Nat), m.length + 1 ≤ fuel → noEarlyDelim m →
      splitOnDelimAux fuel (m ++ delim) = [m, []] := by
  intro m
  induction m with
  | nil =>
    intro fuel hfuel hne
    obtain ⟨f, rfl⟩ : ∃ f, fuel = f + 1 := by
      cases fuel
      · omega
      · exact ⟨_, rfl⟩
    rw [List.nil_append, show delim = ['/', '5', '#', '$', '%', '^', '2', '+', '=', '/'] from rfl,
      splitOnDelimAux, if_pos (by decide)]
    rw [show (['/', '5', '#', '$', '%', '^', '2', '+', '=', '/'] : List Char).drop 10 =
      ([] : List Char) from rfl, splitOnDelimAux_nil]
  | cons c m' ih =>
    intro fuel hfuel hne
    obtain ⟨f, rfl⟩ : ∃ f, fuel = f + 1 := by
      cases fuel
      · omega
      · exact ⟨_, rfl⟩
    rw [List.cons_append, splitOnDelimAux, if_neg (by
      have := hne 0 (by simp)
      simpa using this)]
    rw [ih f (by simpa using hfuel) (by
      intro i hi
      have := hne (i + 1) (by simp; omega)
      simpa using this)]
    rfl

/-- `split` on a frame followed by the delimiter, when the frame itself
contains no earlier occurrence of the delimiter: exactly the frame and a
trailing empty piece. -/
theorem splitOnDelim_append (m : List Char) (hne : noEarlyDelim m) :
    splitOnDelim (m ++ delim) = [m, []] := by
  rw [splitOnDelim, splitOnDelimAux_append m _ (by simp [delim]) hne]

/-! ### Dispatch lemmas -/

theorem jsForEachAux_preserve {α : Type} (get : EngineState → List Nat)
    (visit : Nat → EngineState → EngineState) (f : EngineState → α)
    (hf : ∀ lid st, f (visit lid st) = f st) :
    ∀ fuel k st, f (jsForEachAux get visit fuel k st) = f st := by
  intro fuel
  induction fuel with
  | zero =>
    intro k st
    rfl
  | succ fl ih =>
    intro k st
    rw [jsForEachAux]
    by_cases h : k < (get st).length
    · rw [dif_pos h, ih, hf]
    · rw [dif_neg h, ih]

theorem jsForEachAux_log (get : EngineState → List Nat)
    (visit : Nat → EngineState → EngineState) (mk : Nat → Invocation)
    (L : List Nat)
    (hg : ∀ lid st, get (visit lid st) = get st)
    (hlog : ∀ lid st, (visit lid st).invocations = st.invocations ++ [mk lid]) :
    ∀ fuel k st, get st = L →
      (jsForEachAux get visit fuel k st).invocations =
        st.invocations ++ ((L.drop k).take fuel).map mk := by
  intro fuel
  induction fuel with
  | zero =>
    intro k st hL
    simp [jsForEachAux]
  | succ fl ih =>
    intro k st hL
    rw [jsForEachAux]
    by_cases h : k < (get st).length
    · rw [dif_pos h,
        ih (k + 1) (visit ((get st).get ⟨k, h⟩) st) (by rw [hg, hL]),
        hlog]
      have hk : k < L.length := by rw [← hL]; exact h
      have hdk : L.drop k = L.get ⟨k, hk⟩ :: L.drop (k + 1) := by
        rw [List.drop_eq_getElem_cons hk]
        rfl
      have hget : (get st).get ⟨k, h⟩ = L.get ⟨k, hk⟩ := by
        have : (get st).get ⟨k, h⟩ = (get st).getD k 0 := by
          rw [List.getD_eq_getElem _ _ h]
          rfl
        rw [this, hL, List.getD_eq_getElem _ _ hk]
        rfl
      rw [hget, hdk, List.take_succ_cons, List.map_cons]
      simp
    · rw [dif_neg h, ih (k + 1) st hL]
      have hk : L.length ≤ k := by rw [← hL]; omega
      rw [List.drop_eq_nil_of_le hk]
      simp
      omega

theorem jsForEach_log (get : EngineState → List Nat)
    (visit : Nat → EngineState → EngineState) (mk : Nat → Invocation)
    (L : List Nat) (st : EngineState)
    (hg : ∀ lid st, get (visit lid st) = get st)
    (hlog : ∀ lid st, (visit lid st).invocations = st.invocations ++ [mk lid])
    (hL : get st = L) :
    (jsForEach get visit st).invocations = st.invocations ++ L.map mk := by
  rw [jsForEach, jsForEachAux_log get visit mk L hg hlog _ 0 st hL, hL,
    List.drop_zero, List.take_length]

/-- An action that does not disturb a dispatch of event `E`: a no-op, or
an `off` aimed at a different event's list. -/
def preservesE (E : String) : LAction → Prop
  | .noop => True
  | .offL e _ => e ≠ E

instance (E : String) : DecidablePred (preservesE E) := by
  intro a
  cases a <;> simp only [preservesE] <;> infer_instance

theorem applyAction_allListeners (a : LAction) (st : EngineState) :
    (applyAction a st).allListeners = st.allListeners := by
  cases a with
  | noop => rfl
  | offL e lid =>
    rw [applyAction, offE]
    split <;> rfl

theorem applyAction_messagesCallbacks (a : LAction) (st : EngineState) :
    (applyAction a st).messagesCallbacks = st.messagesCallbacks := by
  cases a with
  | noop => rfl
  | offL e lid =>
    rw [applyAction, offE]
    split <;> rfl

theorem applyAction_clients (a : LAction) (st : EngineState) :
    (applyAction a st).clients = st.clients := by
  cases a with
  | noop => rfl
  | offL e lid =>
    rw [applyAction, offE]
    split <;> rfl

theorem applyAction_invocations (a : LAction) (st : EngineState) :
    (applyAction a st).invocations = st.invocations := by
  cases a with
  | noop => rfl
  | offL e lid =>
    rw [applyAction, offE]
    split <;> rfl

theorem lookup_map_set_ne {β : Type} (k k' : String) (v : β)
    (m : List (String × β)) (h : k ≠ k') :
    (m.map (fun p => if p.1 = k then (k, v) else p)).lookup k' = m.lookup k' := by
  have hbe : (k' == k) = false := by
    simp only [beq_eq_false_iff_ne]
    exact fun hh => h hh.symm
  induction m with
  | nil => rfl
  | cons a m ih =>
    obtain ⟨x, b⟩ := a
    by_cases hx : x = k
    · subst hx
      simp only [List.map_cons, if_true]
      simp [List.lookup, hbe, ih]
    · simp only [List.map_cons, if_neg hx]
      cases hxx : (k' == x) <;> simp [List.lookup, hxx, ih]

theorem lookup_append_ne {β : Type} (k k' : String) (v : β)
    (m : List (String × β)) (h : k ≠ k') :
    (m ++ [(k, v)]).lookup k' = m.lookup k' := by
  have hbe : (k' == k) = false := by
    simp only [beq_eq_false_iff_ne]
    exact fun hh => h hh.symm
  induction m with
  | nil => simp [List.lookup, hbe]
  | cons a m ih =>
    obtain ⟨x, b⟩ := a
    cases hxx : (k' == x) <;> simp [List.lookup, hxx, ih]

theorem setEntryS_lookup_ne {β : Type} (k k' : String) (v : β)
    (m : List (String × β)) (h : k ≠ k') :
    (setEntryS k v m).lookup k' = m.lookup k' := by
  rw [setEntryS]
  split
  · exact lookup_map_set_ne k k' v m h
  · exact lookup_append_ne k k' v m h

theorem applyAction_lookupE (E : String) (a : LAction) (ha : preservesE E a)
    (st : EngineState) :
    (applyAction a st).listeners.lookup E = st.listeners.lookup E := by
  cases a with
  | noop => rfl
  | offL e lid =>
    rw [applyAction, offE]
    split
    · rfl
    · exact setEntryS_lookup_ne e E _ _ ha

/-- Dispatch of a decoded broadcast frame whose listeners do not remove
entries from the dispatched event's own list: every wildcard listener is
invoked first (with the connection, the event name and the arguments),
then every listener registered for the event at dispatch start (with the
connection and the arguments), both groups in registration order. -/
theorem messageHandler_dispatch (beh : Nat → LAction) (c : String)
    (msg : List Char) (s : EngineState) (E : String) (args : List JVal)
    (L : List Nat)
    (hdec : decodeMessage msg = some (0, .jstr E :: args))
    (hE : E ≠ "ping")
    (hL : s.listeners.lookup E = some L)
    (hb : ∀ lid, preservesE E (beh lid)) :
    (messageHandler beh c msg s).invocations =
      s.invocations
        ++ s.allListeners.map (fun lid =>
            Invocation.allListener lid c (some (.jstr E)) args)
        ++ L.map (fun lid => Invocation.listener lid c args) := by
  rw [messageHandler_some beh c msg s 0 (.jstr E :: args) hdec,
    if_neg (by decide), handleBroadcast]
  simp only [List.head?_cons, List.tail_cons, Option.some.injEq,
    JVal.jstr.injEq]
  rw [if_neg hE,
    show ∀ s1, handleNamed beh c args (some (.jstr E)) s1 =
      if (s1.listeners.lookup E).isSome then
        jsForEach (fun st => (st.listeners.lookup E).getD [])
          (fun lid st =>
            applyAction (beh lid) (pushInvoc (.listener lid c args) st)) s1
      else s1 from fun s1 => rfl]
  set visit1 : Nat → EngineState → EngineState := fun lid st =>
    applyAction (beh lid) (pushInvoc (.allListener lid c (some (.jstr E)) args) st)
    with hv1
  set visit2 : Nat → EngineState → EngineState := fun lid st =>
    applyAction (beh lid) (pushInvoc (.listener lid c args) st) with hv2
  have hg1 : ∀ lid st, (visit1 lid st).allListeners = st.allListeners := by
    intro lid st
    rw [hv1]
    exact applyAction_allListeners _ _
  have hlog1 : ∀ lid st, (visit1 lid st).invocations =
      st.invocations ++ [Invocation.allListener lid c (some (.jstr E)) args] := by
    intro lid st
    rw [hv1, applyAction_invocations]
    rfl
  have hlook : ∀ lid st, (visit1 lid st).listeners.lookup E =
      st.listeners.lookup E := by
    intro lid st
    rw [hv1, applyAction_lookupE E _ (hb lid)]
    rfl
  set s1 := jsForEach (fun st => st.allListeners) visit1 s with hs1
  have hinv1 : s1.invocations = s.invocations
      ++ s.allListeners.map (fun lid =>
          Invocation.allListener lid c (some (.jstr E)) args) :=
    jsForEach_log _ visit1 _ s.allListeners s hg1 hlog1 rfl
  have hlook1 : s1.listeners.lookup E = some L := by
    rw [hs1, jsForEach,
      jsForEachAux_preserve _ visit1 (fun st => st.listeners.lookup E) hlook]
    exact hL
  rw [hlook1, if_pos (by rw [Option.isSome_some])]
  have hg2 : ∀ lid st, ((visit2 lid st).listeners.lookup E).getD [] =
      (st.listeners.lookup E).getD [] := by
    intro lid st
    rw [hv2, applyAction_lookupE E _ (hb lid)]
    rfl
  have hlog2 : ∀ lid st, (visit2 lid st).invocations =
      st.invocations ++ [Invocation.listener lid c args] := by
    intro lid st
    rw [hv2, applyAction_invocations]
    rfl
  have hfin := jsForEach_log (fun st => (st.listeners.lookup E).getD [])
    visit2 (fun lid => Invocation.listener lid c args) L s1 hg2 hlog2
    (by simp only [hlook1, Option.getD_some])
  rw [hfin, hinv1, List.append_assoc]

/-! ### Correlation-table accounting (at-most-once delivery) -/

/-- Number of pending entries whose stored handler is `cb`. -/
def countVal (cb : Nat) (m : List (Nat × Nat)) : Nat :=
  m.countP (fun p => p.2 = cb)

/-- Recognise a recorded invocation of response handler `cb`. -/
def isRespInvOf (cb : Nat) : Invocation → Bool
  | .respCallback c _ => c = cb
  | _ => false

/-- Number of recorded invocations of response handler `cb`. -/
def countCbInv (cb : Nat) (l : List Invocation) : Nat :=
  l.countP (isRespInvOf cb)

/-- The keys of the correlation table are pairwise distinct (automatic
for a JavaScript `Map`). -/
def NodupKeys (m : List (Nat × Nat)) : Prop := (m.map Prod.fst).Nodup

instance : DecidablePred NodupKeys := fun m => by
  rw [NodupKeys]
  infer_instance

theorem eraseEntry_not_mem (id : Nat) (m : List (Nat × Nat))
    (h : ∀ p ∈ m, p.1 ≠ id) : eraseEntry id m = m := by
  rw [eraseEntry, List.filter_eq_self]
  intro p hp
  simpa using h p hp

theorem eraseEntry_nodup (id : Nat) (m : List (Nat × Nat))
    (hnod : NodupKeys m) : NodupKeys (eraseEntry id m) := by
  rw [NodupKeys] at hnod ⊢
  exact ((List.filter_sublist m).map Prod.fst).nodup hnod

theorem countVal_erase (cb id cbv : Nat) (m : List (Nat × Nat))
    (hnod : NodupKeys m) (hlook : m.lookup id = some cbv) :
    countVal cb (eraseEntry id m) + (if cbv = cb then 1 else 0) =
      countVal cb m := by
  induction m with
  | nil => simp [List.lookup] at hlook
  | cons a m ih =>
    obtain ⟨k, v⟩ := a
    rw [NodupKeys, List.map_cons, List.nodup_cons] at hnod
    by_cases hk : id = k
    · subst hk
      rw [List.lookup_cons, show (id == id) = true by simp] at hlook
      replace hlook : some v = some cbv := hlook
      injection hlook with hlook
      subst hlook
      have hid : id ∉ m.map Prod.fst := by simpa using hnod.1
      have hnm : eraseEntry id m = m := eraseEntry_not_mem id m (by
        intro p hp hcon
        exact hid (hcon ▸ List.mem_map_of_mem Prod.fst hp))
      rw [eraseEntry, List.filter_cons,
        show (decide ¬((id, v).1 = id)) = false by simp]
      rw [if_neg (by simp)]
      rw [show List.filter (fun p => decide ¬(p.1 = id)) m = eraseEntry id m
        from rfl, hnm, countVal, countVal, List.countP_cons]
      by_cases hvc : v = cb <;> simp [hvc]
    · rw [List.lookup_cons, show (id == k) = false by simpa using hk] at hlook
      replace hlook : List.lookup id m = some cbv := hlook
      rw [eraseEntry, List.filter_cons,
        show (decide ¬((k, v).1 = id)) = true by
          simp
          exact fun hc => hk hc.symm]
      rw [if_pos rfl]
      rw [show List.filter (fun p => decide ¬(p.1 = id)) m = eraseEntry id m
        from rfl]
      rw [countVal, countVal, List.countP_cons, List.countP_cons]
      have := ih hnod.2 hlook
      rw [countVal, countVal] at this
      omega

theorem countVal_erase_le (cb id : Nat) (m : List (Nat × Nat)) :
    countVal cb (eraseEntry id m) ≤ countVal cb m := by
  rw [countVal, countVal, eraseEntry]
  exact (List.filter_sublist m).countP_le _

theorem countCbInv_push (cb : Nat) (i : Invocation) (l : List Invocation) :
    countCbInv cb (l ++ [i]) =
      countCbInv cb l + (if isRespInvOf cb i then 1 else 0) := by
  rw [countCbInv, countCbInv, List.countP_append, List.countP_cons,
    List.countP_nil]
  omega

theorem handleResp_eq_none (mid : Nat) (decoded : List JVal) (s : EngineState)
    (h : s.messagesCallbacks.lookup mid = none) :
    handleResp mid decoded s = s := by
  rw [handleResp.eq_def, h]

theorem handleResp_eq_some (mid : Nat) (decoded : List JVal) (s : EngineState)
    (cbv : Nat) (h : s.messagesCallbacks.lookup mid = some cbv) :
    handleResp mid decoded s =
      { pushInvoc (.respCallback cbv decoded) s with
        messagesCallbacks := eraseEntry mid s.messagesCallbacks } := by
  rw [handleResp.eq_def, h]
  rfl

theorem timeoutFire_eq_none (mid tcb : Nat) (s : EngineState)
    (h : s.messagesCallbacks.lookup mid = none) :
    timeoutFire mid tcb s = s := by
  rw [timeoutFire.eq_def, h]

theorem timeoutFire_eq_some (mid tcb : Nat) (s : EngineState) (c : Nat)
    (h : s.messagesCallbacks.lookup mid = some c) :
    timeoutFire mid tcb s =
      if c = tcb then
        { s with messagesCallbacks := eraseEntry mid s.messagesCallbacks }
      else s := by
  rw [timeoutFire.eq_def, h]

theorem handleResp_mu (mid : Nat) (decoded : List JVal) (cb : Nat)
    (s : EngineState) (hnod : NodupKeys s.messagesCallbacks) :
    NodupKeys (handleResp mid decoded s).messagesCallbacks ∧
    countCbInv cb (handleResp mid decoded s).invocations +
        countVal cb (handleResp mid decoded s).messagesCallbacks ≤
      countCbInv cb s.invocations + countVal cb s.messagesCallbacks := by
  cases hlook : s.messagesCallbacks.lookup mid with
  | none =>
    rw [handleResp_eq_none mid decoded s hlook]
    exact ⟨hnod, le_refl _⟩
  | some cbv =>
    rw [handleResp_eq_some mid decoded s cbv hlook]
    constructor
    · exact eraseEntry_nodup mid _ hnod
    · show countCbInv cb (s.invocations ++ [.respCallback cbv decoded]) +
        countVal cb (eraseEntry mid s.messagesCallbacks) ≤ _
      rw [countCbInv_push]
      have her := countVal_erase cb mid cbv s.messagesCallbacks hnod hlook
      have hiff : (if isRespInvOf cb (.respCallback cbv decoded) then 1 else 0) =
          (if cbv = cb then 1 else 0) := by
        by_cases h : cbv = cb <;> simp [isRespInvOf, h]
      omega

theorem timeoutFire_mu (mid tcb cb : Nat) (s : EngineState)
    (hnod : NodupKeys s.messagesCallbacks) :
    NodupKeys (timeoutFire mid tcb s).messagesCallbacks ∧
    countCbInv cb (timeoutFire mid tcb s).invocations +
        countVal cb (timeoutFire mid tcb s).messagesCallbacks ≤
      countCbInv cb s.invocations + countVal cb s.messagesCallbacks := by
  cases hlook : s.messagesCallbacks.lookup mid with
  | none =>
    rw [timeoutFire_eq_none mid tcb s hlook]
    exact ⟨hnod, le_refl _⟩
  | some c =>
    rw [timeoutFire_eq_some mid tcb s c hlook]
    by_cases hc : c = tcb
    · rw [if_pos hc]
      refine ⟨eraseEntry_nodup mid _ hnod, ?_⟩
      have := countVal_erase_le cb mid s.messagesCallbacks
      show countCbInv cb s.invocations +
        countVal cb (eraseEntry mid s.messagesCallbacks) ≤ _
      omega
    · rw [if_neg hc]
      exact ⟨hnod, le_refl _⟩

theorem sendTo_cbNone (s : EngineState) (rand : List Nat) (c : String)
    (args : List JVal) (s' : EngineState)
    (h : sendTo s rand c args none = some s') :
    s'.messagesCallbacks = s.messagesCallbacks ∧
      s'.invocations = s.invocations := by
  rw [sendTo] at h
  split_ifs at h
  · injection h with h
    subst h
    exact ⟨rfl, rfl⟩
  · injection h with h
    subst h
    exact ⟨rfl, rfl⟩
  · injection h with h
    subst h
    exact ⟨rfl, rfl⟩

theorem handleBroadcast_mu (beh : Nat → LAction) (c : String)
    (decoded : List JVal) (cb : Nat) (s : EngineState) :
    (handleBroadcast beh c decoded s).messagesCallbacks =
        s.messagesCallbacks ∧
      countCbInv cb (handleBroadcast beh c decoded s).invocations =
        countCbInv cb s.invocations := by
  have hvisit : ∀ (i : Invocation), isRespInvOf cb i = false →
      ∀ (a : LAction) (st : EngineState),
      (applyAction a (pushInvoc i st)).messagesCallbacks =
          st.messagesCallbacks ∧
        countCbInv cb (applyAction a (pushInvoc i st)).invocations =
          countCbInv cb st.invocations := by
    intro i hi a st
    rw [applyAction_messagesCallbacks, applyAction_invocations]
    refine ⟨rfl, ?_⟩
    show countCbInv cb (st.invocations ++ [i]) = _
    rw [countCbInv_push, hi]
    simp
  rw [handleBroadcast]
  split_ifs with hping
  · cases hs' : sendTo s [] c [.jstr "pong"] none with
    | none => exact ⟨rfl, rfl⟩
    | some s' =>
      obtain ⟨h1, h2⟩ := sendTo_cbNone s [] c [.jstr "pong"] s' hs'
      rw [h1, h2]
      exact ⟨rfl, rfl⟩
  · set f : EngineState → List (Nat × Nat) × Nat :=
      fun st => (st.messagesCallbacks, countCbInv cb st.invocations) with hf
    have hpres1 : ∀ lid st,
        f (applyAction (beh lid)
          (pushInvoc (.allListener lid c decoded.head? decoded.tail) st)) =
          f st := by
      intro lid st
      obtain ⟨h1, h2⟩ :=
        hvisit (.allListener lid c decoded.head? decoded.tail) rfl (beh lid) st
      rw [hf]
      simp only [h1, h2]
    have hs1 := jsForEachAux_preserve (fun st => st.allListeners) _ f hpres1
      (s.allListeners).length 0 s
    set s1 := jsForEach (fun st => st.allListeners)
      (fun lid st =>
        applyAction (beh lid)
          (pushInvoc (.allListener lid c decoded.head? decoded.tail) st)) s
      with hs1def
    have hfs1 : f s1 = f s := hs1
    cases hev : decoded.head? with
    | none => exact ⟨congrArg Prod.fst hfs1, congrArg Prod.snd hfs1⟩
    | some v =>
      cases v with
      | jstr e =>
        rw [handleNamed.eq_def]
        simp only []
        split_ifs with hsome
        · set f2pres : ∀ lid st,
            f (applyAction (beh lid)
              (pushInvoc (.listener lid c decoded.tail) st)) = f st :=
            fun lid st => by
              obtain ⟨h1, h2⟩ :=
                hvisit (.listener lid c decoded.tail) rfl (beh lid) st
              rw [hf]
              simp only [h1, h2]
          have hs2 := jsForEachAux_preserve
            (fun st => (st.listeners.lookup e).getD []) _ f f2pres
            ((s1.listeners.lookup e).getD []).length 0 s1
          rw [jsForEach]
          refine ⟨?_, ?_⟩
          · have := congrArg Prod.fst (hs2.trans hfs1)
            simpa using this
          · have := congrArg Prod.snd (hs2.trans hfs1)
            simpa using this
        · exact ⟨congrArg Prod.fst hfs1, congrArg Prod.snd hfs1⟩
      | jnull => exact ⟨congrArg Prod.fst hfs1, congrArg Prod.snd hfs1⟩
      | jbool b => exact ⟨congrArg Prod.fst hfs1, congrArg Prod.snd hfs1⟩
      | jnum n => exact ⟨congrArg Prod.fst hfs1, congrArg Prod.snd hfs1⟩
      | jfun fid => exact ⟨congrArg Prod.fst hfs1, congrArg Prod.snd hfs1⟩

theorem eraseEntry_lookup_none (id : Nat) (m : List (Nat × Nat)) :
    (eraseEntry id m).lookup id = none := by
  induction m with
  | nil => rfl
  | cons a m ih =>
    obtain ⟨k, v⟩ := a
    rw [eraseEntry, List.filter_cons]
    by_cases hk : k = id
    · subst hk
      rw [show (decide ¬((k, v).1 = k)) = false by simp, if_neg (by simp)]
      exact ih
    · rw [show (decide ¬((k, v).1 = id)) = true by simpa using hk, if_pos rfl,
        List.lookup_cons, show (id == k) = false by
          simpa using fun hc => hk hc.symm]
      exact ih

/-- An external event occurring after a pending call has been registered:
an inbound wire message, or the expiry of one of the 5000 ms timers
(carrying the id and the handler identity it was scheduled with). -/
inductive TEvent where
  | frame : List Char → TEvent
  | expire : Nat → Nat → TEvent
deriving DecidableEq

/-- Process one event against the engine. -/
def runTEvent (beh : Nat → LAction) (c : String) (s : EngineState) :
    TEvent → EngineState
  | .frame m => messageHandler beh c m s
  | .expire mid tcb => timeoutFire mid tcb s

/-- Process a sequence of events in order. -/
def runTEvents (beh : Nat → LAction) (c : String) (evs : List TEvent)
    (s : EngineState) : EngineState :=
  evs.foldl (runTEvent beh c) s

theorem messageHandler_mu (beh : Nat → LAction) (c : String) (m : List Char)
    (cb : Nat) (s : EngineState) (hnod : NodupKeys s.messagesCallbacks) :
    NodupKeys (messageHandler beh c m s).messagesCallbacks ∧
    countCbInv cb (messageHandler beh c m s).invocations +
        countVal cb (messageHandler beh c m s).messagesCallbacks ≤
      countCbInv cb s.invocations + countVal cb s.messagesCallbacks := by
  cases hdec : decodeMessage m with
  | none =>
    rw [messageHandler_none beh c m s hdec]
    exact ⟨hnod, le_refl _⟩
  | some p =>
    obtain ⟨mid, decoded⟩ := p
    rw [messageHandler_some beh c m s mid decoded hdec]
    by_cases hmid : mid > 0
    · rw [if_pos hmid]
      exact handleResp_mu mid decoded cb s hnod
    · rw [if_neg hmid]
      obtain ⟨h1, h2⟩ := handleBroadcast_mu beh c decoded cb s
      rw [h1, h2]
      exact ⟨hnod, le_refl _⟩

theorem runTEvents_mu (beh : Nat → LAction) (c : String) (cb : Nat) :
    ∀ (evs : List TEvent) (s : EngineState),
      NodupKeys s.messagesCallbacks →
      NodupKeys (runTEvents beh c evs s).messagesCallbacks ∧
      countCbInv cb (runTEvents beh c evs s).invocations +
          countVal cb (runTEvents beh c evs s).messagesCallbacks ≤
        countCbInv cb s.invocations + countVal cb s.messagesCallbacks := by
  intro evs
  induction evs with
  | nil =>
    intro s hnod
    exact ⟨hnod, le_refl _⟩
  | cons e evs ih =>
    intro s hnod
    have hstep : NodupKeys (runTEvent beh c s e).messagesCallbacks ∧
        countCbInv cb (runTEvent beh c s e).invocations +
            countVal cb (runTEvent beh c s e).messagesCallbacks ≤
          countCbInv cb s.invocations + countVal cb s.messagesCallbacks := by
      cases e with
      | frame m => exact messageHandler_mu beh c m cb s hnod
      | expire mid tcb => exact timeoutFire_mu mid tcb cb s hnod
    have hrest := ih (runTEvent beh c s e) hstep.1
    rw [runTEvents] at hrest ⊢
    rw [List.foldl_cons]
    exact ⟨hrest.1, le_trans hrest.2 hstep.2⟩

theorem timeoutFire_invocations (mid tcb : Nat) (s : EngineState) :
    (timeoutFire mid tcb s).invocations = s.invocations := by
  cases hlook : s.messagesCallbacks.lookup mid with
  | none => rw [timeoutFire_eq_none mid tcb s hlook]
  | some c =>
    rw [timeoutFire_eq_some mid tcb s c hlook]
    split_ifs <;> rfl

/-! ### Concrete scenario states -/

/-- A running server with one connected client "a" and nothing else. -/
def baseState : EngineState :=
  { listening := true, clients := ["a"], messagesCallbacks := [],
    listeners := [], allListeners := [], connectCallbacks := [],
    disconnectCallbacks := [], invocations := [], outbox := [] }

/-- The listener behaviour of plain application listeners: no engine
mutation. -/
def behNoop : Nat → LAction := fun _ => .noop

/-! ### Claims -/

/-- C1: with a response handler supplied, `sendTo` is claimed to allocate a
correlation id in `[1, 2^31-1]`, never `0`. The code draws
`randomNumber(0, 2147483647)`, whose range includes `0`, and the retry
loop `while (messageId > 0 && ...)` accepts a draw of `0` immediately, so
the handler is stored in the Correlation Table under key `0`. This
theorem evaluates `sendTo` at that failing draw: the id is `0`, the entry
`(0, handler)` is placed in the table, and a subsequent id-0 frame (the
only frame carrying this id) takes the broadcast path, leaving the entry
uninvoked and undeleted — the handler can never fire. -/
theorem C1_sendTo_accepts_zero_draw :
    sendTo baseState [0] "a" [] (some 7) =
      some { baseState with
             messagesCallbacks := [(0, 7)]
             outbox := [("a", '0' :: '[' :: ']' :: delim)] } ∧
    (messageHandler behNoop "a" ['0', '[', ']']
        { baseState with messagesCallbacks := [(0, 7)] }).messagesCallbacks
      = [(0, 7)] ∧
    (messageHandler behNoop "a" ['0', '[', ']']
        { baseState with messagesCallbacks := [(0, 7)] }).invocations = [] := by
  refine ⟨?_, ?_, ?_⟩ <;> decide

/-- C2: a pending call's handler is invoked at most once. Over any
sequence of inbound frames and timer expiries, starting from a table in
which the handler occurs at most once and no invocation of it has been
recorded, at most one invocation of it is ever recorded; moreover the
response path that does invoke it deletes its entry in the same step
(so the id is no longer in the table), and the timeout path never
invokes anything (it only deletes, and only when the entry still exists
and still holds the same handler). -/
theorem C2_pending_handler_at_most_once (beh : Nat → LAction) (c : String)
    (cb : Nat) (evs : List TEvent) (s : EngineState)
    (hnod : NodupKeys s.messagesCallbacks)
    (hcnt : countVal cb s.messagesCallbacks ≤ 1)
    (hinv : countCbInv cb s.invocations = 0) :
    countCbInv cb (runTEvents beh c evs s).invocations ≤ 1 ∧
    (∀ (mid : Nat) (decoded : List JVal) (s' : EngineState),
      s'.messagesCallbacks.lookup mid = some cb →
      handleResp mid decoded s' =
        { pushInvoc (.respCallback cb decoded) s' with
          messagesCallbacks := eraseEntry mid s'.messagesCallbacks } ∧
      (handleResp mid decoded s').messagesCallbacks.lookup mid = none) ∧
    (∀ (mid tcb : Nat) (s' : EngineState),
      (timeoutFire mid tcb s').invocations = s'.invocations) := by
  refine ⟨?_, ?_, ?_⟩
  · have := runTEvents_mu beh c cb evs s hnod
    omega
  · intro mid decoded s' hlook
    refine ⟨handleResp_eq_some mid decoded s' cb hlook, ?_⟩
    rw [handleResp_eq_some mid decoded s' cb hlook]
    exact eraseEntry_lookup_none mid s'.messagesCallbacks
  · intro mid tcb s'
    exact timeoutFire_invocations mid tcb s'

/-- The C2 scenario state: handler 9 pending under correlation id 5. -/
def c2State : EngineState := { baseState with messagesCallbacks := [(5, 9)] }

/-- Witness for C2 at a concrete scenario: the events are a matching
response frame, a duplicate response frame and the expiry of the 5000 ms
timer; handler 9 runs at most once. -/
theorem C2_pending_handler_at_most_once_witness :
    (NodupKeys c2State.messagesCallbacks ∧
      countVal 9 c2State.messagesCallbacks ≤ 1 ∧
      countCbInv 9 c2State.invocations = 0) ∧
    countCbInv 9 (runTEvents behNoop "a"
      [.frame ("5[1]".toList), .frame ("5[2]".toList), .expire 5 9]
      c2State).invocations ≤ 1 :=
  ⟨⟨by decide, by decide, by decide⟩,
    (C2_pending_handler_at_most_once behNoop "a" 9
      [.frame ("5[1]".toList), .frame ("5[2]".toList), .expire 5 9]
      c2State (by decide) (by decide) (by decide)).1⟩

/-- The C3 scenario: event "evt" has listeners 1 and 2, registered in
that order; listener 1 is a `once`-style wrapper whose body first removes
itself from the same list (`off("evt", 1)`). -/
def c3State : EngineState := { baseState with listeners := [("evt", [1, 2])] }

/-- The behaviour of the C3 listeners: listener 1 removes itself, the
rest do nothing. -/
def c3Beh : Nat → LAction := fun lid => if lid = 1 then .offL "evt" 1 else .noop

/-- C3 counterexample: the claim says a dispatch in progress iterates a
snapshot, so every listener registered at dispatch start is invoked even
if an earlier listener removes entries from the same list. In the code,
`forEach` iterates the live array: when listener 1 splices itself out,
listener 2 shifts down to index 0, index 1 no longer exists, and
listener 2 — registered at dispatch start — is never invoked. -/
theorem C3_counterexample_removal_skips_listener :
    (messageHandler c3Beh "a" ("0[\"evt\"]".toList) c3State).invocations
        = [.listener 1 "a" []] ∧
    Invocation.listener 2 "a" [] ∉
      (messageHandler c3Beh "a" ("0[\"evt\"]".toList) c3State).invocations := by
  constructor <;> decide

/-- C3 amended: removal via `off` only affects the dispatch in progress
when it targets the dispatched event's own list. When every listener
action invoked during the dispatch is a no-op or an `off` aimed at a
different event's list, every listener registered at dispatch start is
invoked, wildcard listeners first, then the name-specific list, both in
registration order. (Removal from the same list — e.g. a `once` wrapper's
self-removal — shifts later listeners down and skips the next one, as the
counterexample shows.) -/
theorem C3_off_other_list_leaves_dispatch_intact (beh : Nat → LAction)
    (c : String) (msg : List Char) (s : EngineState) (E : String)
    (args : List JVal) (L : List Nat)
    (hdec : decodeMessage msg = some (0, .jstr E :: args))
    (hE : E ≠ "ping")
    (hL : s.listeners.lookup E = some L)
    (hb : ∀ lid, preservesE E (beh lid)) :
    (messageHandler beh c msg s).invocations =
      s.invocations
        ++ s.allListeners.map (fun lid =>
            Invocation.allListener lid c (some (.jstr E)) args)
        ++ L.map (fun lid => Invocation.listener lid c args) :=
  messageHandler_dispatch beh c msg s E args L hdec hE hL hb

/-- The C3 witness scenario: "evt" has listeners 1 and 2, "other" has
listener 9; listener 5 (not even registered) would remove from "other";
no action touches "evt"'s list. -/
def c3wState : EngineState :=
  { baseState with listeners := [("evt", [1, 2]), ("other", [9])] }

/-- The witness behaviour: listener 1 removes listener 9 from the
different event "other"; everything else is a no-op. -/
def c3wBeh : Nat → LAction := fun lid => if lid = 1 then .offL "other" 9 else .noop

/-- Witness for the amended C3: with a removal aimed at a different
event's list happening mid-dispatch, both listeners of "evt" still run,
in order. -/
theorem C3_off_other_list_leaves_dispatch_intact_witness :
    (decodeMessage ("0[\"evt\"]".toList) = some (0, [JVal.jstr "evt"]) ∧
      "evt" ≠ "ping" ∧
      c3wState.listeners.lookup "evt" = some [1, 2]) ∧
    (messageHandler c3wBeh "a" ("0[\"evt\"]".toList) c3wState).invocations
      = [.listener 1 "a" [], .listener 2 "a" []] :=
  ⟨⟨by decide, by decide, by decide⟩,
    (C3_off_other_list_leaves_dispatch_intact c3wBeh "a" ("0[\"evt\"]".toList)
      c3wState "evt" [] [1, 2] (by decide) (by decide) (by decide)
      (fun lid => by
        rw [c3wBeh]
        split_ifs with h
        · exact (by decide : preservesE "evt" (.offL "other" 9))
        · exact trivial)).trans (by decide)⟩

/-- C6: dispatch order on a decoded broadcast with plain (non-mutating)
listeners: all wildcard listeners first, each receiving the connection,
the event name and the arguments; then all listeners registered for the
event, each receiving the connection and the arguments; both groups in
registration order. -/
theorem C6_dispatch_order (beh : Nat → LAction) (c : String) (msg : List Char)
    (s : EngineState) (E : String) (args : List JVal) (L : List Nat)
    (hdec : decodeMessage msg = some (0, .jstr E :: args))
    (hE : E ≠ "ping")
    (hL : s.listeners.lookup E = some L)
    (hb : ∀ lid, beh lid = LAction.noop) :
    (messageHandler beh c msg s).invocations =
      s.invocations
        ++ s.allListeners.map (fun lid =>
            Invocation.allListener lid c (some (.jstr E)) args)
        ++ L.map (fun lid => Invocation.listener lid c args) :=
  messageHandler_dispatch beh c msg s E args L hdec hE hL
    (fun lid => by rw [hb lid]; exact trivial)

/-- The C6 scenario: listeners L1 = 1 and L2 = 2 registered for "evt" in
that order, and one wildcard listener W = 10. -/
def c6State : EngineState :=
  { baseState with listeners := [("evt", [1, 2])], allListeners := [10] }

/-- Witness for C6: broadcasting `evt` with argument 7 invokes W, then
L1, then L2, in that order. -/
theorem C6_dispatch_order_witness :
    (decodeMessage ("0[\"evt\",7]".toList) = some (0, [JVal.jstr "evt", JVal.jnum 7]) ∧
      "evt" ≠ "ping" ∧
      c6State.listeners.lookup "evt" = some [1, 2]) ∧
    (messageHandler behNoop "a" ("0[\"evt\",7]".toList) c6State).invocations
      = [.allListener 10 "a" (some (.jstr "evt")) [.jnum 7],
         .listener 1 "a" [.jnum 7], .listener 2 "a" [.jnum 7]] :=
  ⟨⟨by decide, by decide, by decide⟩,
    (C6_dispatch_order behNoop "a" ("0[\"evt\",7]".toList) c6State "evt"
      [.jnum 7] [1, 2] (by decide) (by decide) (by decide)
      (fun _ => rfl)).trans (by decide)⟩

theorem regexSplit_none_iff (msg : List Char) :
    regexSplit msg = none ↔ ∀ ch ∈ msg, ch.isDigit = false := by
  induction msg with
  | nil => simp [regexSplit]
  | cons c cs ih =>
    rw [regexSplit]
    by_cases hc : c.isDigit
    · rw [if_pos hc]
      simp [List.forall_mem_cons, hc]
    · rw [if_neg hc]
      simp [Option.map_eq_none', List.forall_mem_cons, ih,
        Bool.not_eq_true, hc]

theorem regexSplit_props (msg : List Char) :
    ∀ pre ds rest, regexSplit msg = some (pre, ds, rest) →
      (∀ ch ∈ pre, ch.isDigit = false) ∧ ds ≠ [] ∧
        (∀ ch ∈ ds, ch.isDigit = true) := by
  induction msg with
  | nil =>
    intro pre ds rest h
    simp [regexSplit] at h
  | cons c cs ih =>
    intro pre ds rest h
    rw [regexSplit] at h
    by_cases hc : c.isDigit
    · rw [if_pos hc] at h
      simp only [Option.some.injEq, Prod.mk.injEq] at h
      obtain ⟨h1, h2, -⟩ := h
      subst h1
      subst h2
      refine ⟨by simp, ?_, ?_⟩
      · rw [takeDigits]
        simp only []
        rw [List.takeWhile_cons, if_pos hc]
        simp
      · intro ch hch
        rw [takeDigits] at hch
        simp only [] at hch
        exact List.mem_takeWhile_imp hch
    · rw [if_neg hc] at h
      rw [Option.map_eq_some'] at h
      obtain ⟨p, hp, heq⟩ := h
      obtain ⟨pre1, ds1, rest1⟩ := p
      simp only [Prod.mk.injEq] at heq
      obtain ⟨h1, h2, h3⟩ := heq
      subst h1
      subst h2
      subst h3
      obtain ⟨hp1, hp2, hp3⟩ := ih pre1 ds1 rest1 hp
      refine ⟨?_, hp2, hp3⟩
      intro ch hch
      rcases List.mem_cons.mp hch with rfl | hch
      · simpa using hc
      · exact hp1 ch hch

theorem decodeMessage_none_of_regexSplit_none (msg : List Char)
    (h : regexSplit msg = none) : decodeMessage msg = none := by
  rw [decodeMessage.eq_def, h]

theorem decodeMessage_of_regexSplit_some (msg pre ds rest : List Char)
    (h : regexSplit msg = some (pre, ds, rest)) :
    decodeMessage msg =
      match jsonParse (removeInvisibleSymbols (trimList rest)) with
      | none => none
      | some vs => some (digitsToNat ds, vs) := by
  rw [decodeMessage.eq_def, h]

/-- C4 amended: decoding splits at the first digit run anywhere in the
message (the regex `/(\d+)(.*)/` is unanchored): only a message with no
digit at all fails the match and is discarded unchanged; when the match
succeeds, the text before the first maximal digit run is silently
dropped (it need not be empty) and the digit run need not be leading.
The JSON half of the claim stands: a remainder that fails to parse (after
`trim` and NUL removal) discards the message with no state change. -/
theorem C4_decode_split_and_discard (beh : Nat → LAction) (c : String)
    (s : EngineState) (msg : List Char) :
    (regexSplit msg = none ↔ ∀ ch ∈ msg, ch.isDigit = false) ∧
    (regexSplit msg = none → messageHandler beh c msg s = s) ∧
    (∀ pre ds rest, regexSplit msg = some (pre, ds, rest) →
      (∀ ch ∈ pre, ch.isDigit = false) ∧ ds ≠ [] ∧
        (∀ ch ∈ ds, ch.isDigit = true)) ∧
    (∀ pre ds rest, regexSplit msg = some (pre, ds, rest) →
      jsonParse (removeInvisibleSymbols (trimList rest)) = none →
      messageHandler beh c msg s = s) := by
  refine ⟨regexSplit_none_iff msg, ?_, regexSplit_props msg, ?_⟩
  · intro h
    exact messageHandler_none beh c msg s
      (decodeMessage_none_of_regexSplit_none msg h)
  · intro pre ds rest h1 h2
    refine messageHandler_none beh c msg s ?_
    rw [decodeMessage_of_regexSplit_some msg pre ds rest h1, h2]

/-- Witness for the amended C4: "xy[]" contains no digit and is
discarded; "7[oops" matches with digit run "7" but its remainder fails
JSON parsing and is discarded. -/
theorem C4_decode_split_and_discard_witness :
    (regexSplit ("xy[]".toList) = none ∧
      messageHandler behNoop "a" ("xy[]".toList) baseState = baseState) ∧
    (regexSplit ("7[oops".toList) = some ([], ['7'], "[oops".toList) ∧
      jsonParse (removeInvisibleSymbols (trimList ("[oops".toList))) = none ∧
      messageHandler behNoop "a" ("7[oops".toList) baseState = baseState) :=
  ⟨⟨by decide,
    (C4_decode_split_and_discard behNoop "a" baseState ("xy[]".toList)).2.1
      (by decide)⟩,
   ⟨by decide, by decide,
    (C4_decode_split_and_discard behNoop "a" baseState
      ("7[oops".toList)).2.2.2 [] ['7'] ("[oops".toList) (by decide)
      (by decide)⟩⟩

/-- The C4 scenario: handler 5 pending under correlation id 1. -/
def c4State : EngineState := { baseState with messagesCallbacks := [(1, 5)] }

/-- C4 counterexample: "a1[true]" has no leading digit run, yet it is not
discarded: the unanchored regex matches the digit run "1" mid-string, the
message decodes as a response with id 1, and pending handler 5 is
invoked (and its entry consumed) — contradicting "no listener or pending
handler is invoked, no state change". -/
theorem C4_counterexample_unanchored_match :
    (messageHandler behNoop "a" ("a1[true]".toList) c4State).invocations
        = [.respCallback 5 [.jbool true]] ∧
    messageHandler behNoop "a" ("a1[true]".toList) c4State ≠ c4State := by
  constructor <;> decide

/-- C5 counterexample: a string argument that is exactly the delimiter
token survives `JSON.stringify` verbatim (no character of it is escaped),
so the inbound split cuts the frame apart: both resulting pieces fail to
decode and the original argument list is lost. -/
theorem C5_counterexample_delimiter_in_string :
    inboundDecode ('0' :: stringifyArr [.jstr (String.mk delim)] ++ delim)
        = [none, none] ∧
    inboundDecode ('0' :: stringifyArr [.jstr (String.mk delim)] ++ delim)
      ≠ [some (0, [JVal.jstr (String.mk delim)])] := by
  constructor <;> decide

/-- C5 amended: encoding an argument list of scalar values as `send` does
(`'0'`, the JSON array, the delimiter) and running the inbound path
(split on the delimiter, skip empty pieces, decode) yields back exactly
the original list, provided (a) the encoded frame contains no occurrence
of the delimiter token — in particular no string argument contains the
full delimiter, though delimiter-like fragments are fine — and (b) no
string argument contains the U+2028/U+2029 line separators, which
`JSON.stringify` leaves unescaped but the regex `.` refuses to cross. -/
theorem C5_roundtrip_without_delimiter (args : List JVal)
    (h1 : ∀ v ∈ args, v.isData = true)
    (h2 : ∀ v ∈ args, v.noLineSep)
    (h3 : noEarlyDelim ('0' :: stringifyArr args)) :
    inboundDecode ('0' :: stringifyArr args ++ delim) = [some (0, args)] := by
  rw [inboundDecode,
    show '0' :: stringifyArr args ++ delim
      = ('0' :: stringifyArr args) ++ delim from rfl,
    splitOnDelim_append _ h3,
    show (([('0' :: stringifyArr args), []] : List (List Char)).filter
      (fun m => m ≠ [])) = [('0' :: stringifyArr args)] by simp,
    List.map_cons, List.map_nil, decodeMessage_frame args h1 h2]

theorem foldl_pushInvoc_clients (l : List Nat) (f : Nat → Invocation)
    (s : EngineState) :
    (l.foldl (fun st cb => pushInvoc (f cb) st) s).clients = s.clients := by
  induction l generalizing s with
  | nil => rfl
  | cons a l ih =>
    rw [List.foldl_cons, ih]
    rfl

theorem foldl_pushInvoc_invocations (l : List Nat) (f : Nat → Invocation)
    (s : EngineState) :
    (l.foldl (fun st cb => pushInvoc (f cb) st) s).invocations
      = s.invocations ++ l.map f := by
  induction l generalizing s with
  | nil => simp
  | cons a l ih =>
    rw [List.foldl_cons, ih, List.map_cons]
    show (s.invocations ++ [f a]) ++ l.map f = s.invocations ++ (f a :: l.map f)
    simp

theorem clientDisconnecHandler_not_mem (s : EngineState) (k : Sock) (r : String)
    (h : s.clients.contains k.clientId = false) :
    clientDisconnecHandler s k r = (s, k) := by
  rw [clientDisconnecHandler.eq_def, if_pos (by rw [h]; simp)]

/-- C7: disconnect is idempotent. Running the disconnect handler for a
registered connection id invokes every registered disconnect callback
(in order, with the id and reason) and removes the id from the registry;
running it again on the resulting state and socket — whose client id was
cleared to the empty string, which is assumed not to be a registered
id — finds the id absent and is a pure no-op on both state and socket. -/
theorem C7_idempotent_disconnect (s : EngineState) (k : Sock) (r1 r2 : String)
    (hmem : s.clients.contains k.clientId = true)
    (hempty : s.clients.contains "" = false) :
    (clientDisconnecHandler s k r1).1.invocations
        = s.invocations ++ s.disconnectCallbacks.map
            (fun cb => Invocation.disconnectCb cb k.clientId r1) ∧
    (clientDisconnecHandler s k r1).1.clients
        = s.clients.filter (fun x => x ≠ k.clientId) ∧
    (clientDisconnecHandler s k r1).2.clientId = "" ∧
    clientDisconnecHandler (clientDisconnecHandler s k r1).1
        (clientDisconnecHandler s k r1).2 r2
      = ((clientDisconnecHandler s k r1).1, (clientDisconnecHandler s k r1).2) := by
  have hcall : clientDisconnecHandler s k r1 =
      ({ (s.disconnectCallbacks.foldl
            (fun st cb => pushInvoc (.disconnectCb cb k.clientId r1) st) s) with
          clients := (s.disconnectCallbacks.foldl
            (fun st cb => pushInvoc (.disconnectCb cb k.clientId r1) st)
              s).clients.filter (fun x => x ≠ k.clientId) },
       { clientId := "", ping := -1, hasTimer := false }) := by
    rw [clientDisconnecHandler.eq_def, if_neg (by rw [hmem]; simp)]
  have hclients := foldl_pushInvoc_clients s.disconnectCallbacks
    (fun cb => Invocation.disconnectCb cb k.clientId r1) s
  have hfilt : ((s.disconnectCallbacks.foldl
      (fun st cb => pushInvoc (.disconnectCb cb k.clientId r1) st)
        s).clients.filter (fun x => x ≠ k.clientId)).contains "" = false := by
    rw [hclients]
    by_contra hc
    rw [Bool.not_eq_false] at hc
    have hm : ("" : String) ∈ s.clients.filter (fun x => x ≠ k.clientId) :=
      List.elem_iff.mp hc
    have hms : ("" : String) ∈ s.clients := (List.mem_filter.mp hm).1
    have : s.clients.contains "" = true := List.elem_iff.mpr hms
    rw [hempty] at this
    exact Bool.false_ne_true this
  refine ⟨?_, ?_, ?_, ?_⟩
  · rw [hcall]
    exact foldl_pushInvoc_invocations s.disconnectCallbacks
      (fun cb => Invocation.disconnectCb cb k.clientId r1) s
  · rw [hcall]
    exact congrArg (fun l => l.filter (fun x => (x ≠ k.clientId : Bool))) hclients
  · rw [hcall]
  · apply clientDisconnecHandler_not_mem
    rw [hcall]
    exact hfilt

/-- The C7 scenario: a listening engine with one registered client and
two disconnect callbacks. -/
def c7State : EngineState :=
  { baseState with
    clients := ["c1"]
    disconnectCallbacks := [4, 5] }

/-- The C7 scenario socket, bound to the registered client. -/
def c7Sock : Sock := { clientId := "c1", ping := 0, hasTimer := true }

/-- Witness for C7 on a concrete engine state and socket. -/
theorem C7_idempotent_disconnect_witness :
    (c7State.clients.contains c7Sock.clientId = true ∧
      c7State.clients.contains "" = false) ∧
    ((clientDisconnecHandler c7State c7Sock "gone").1.invocations
        = c7State.invocations ++ c7State.disconnectCallbacks.map
            (fun cb => Invocation.disconnectCb cb c7Sock.clientId "gone") ∧
      (clientDisconnecHandler c7State c7Sock "gone").1.clients
        = c7State.clients.filter (fun x => x ≠ c7Sock.clientId) ∧
      (clientDisconnecHandler c7State c7Sock "gone").2.clientId = "" ∧
      clientDisconnecHandler (clientDisconnecHandler c7State c7Sock "gone").1
          (clientDisconnecHandler c7State c7Sock "gone").2 "again"
        = ((clientDisconnecHandler c7State c7Sock "gone").1,
           (clientDisconnecHandler c7State c7Sock "gone").2)) :=
  ⟨⟨by decide, by decide⟩,
    C7_idempotent_disconnect c7State c7Sock "gone" "again" (by decide) (by decide)⟩

/-- The C5 witness argument list: delimiter-like substrings, numbers of
both signs, booleans. -/
def c5Args : List JVal :=
  [.jstr "test, data", .jnum 5333, .jbool true, .jnum (-2), .jstr "a/5#b"]

/-- Witness for the amended C5 at a concrete argument list. -/
theorem C5_roundtrip_without_delimiter_witness :
    ((∀ v ∈ c5Args, v.isData = true) ∧ (∀ v ∈ c5Args, v.noLineSep) ∧
      noEarlyDelim ('0' :: stringifyArr c5Args)) ∧
    inboundDecode ('0' :: stringifyArr c5Args ++ delim)
      = [some (0, c5Args)] :=
  ⟨⟨by decide, by decide, by decide⟩,
    C5_roundtrip_without_delimiter c5Args (by decide) (by decide) (by decide)⟩

theorem takeDigits_send_frame (args : List JVal) :
    takeDigits ('0' :: stringifyArr args ++ delim)
      = (['0'], stringifyArr args ++ delim) := by
  rw [takeDigits, stringifyArr]
  rw [show ('0' :: ('[' :: stringifyElems args) ++ delim)
      = '0' :: '[' :: (stringifyElems args ++ delim) from rfl]
  rw [List.takeWhile_cons, List.dropWhile_cons]
  rw [if_pos (by decide), if_pos (by decide)]
  rw [List.takeWhile_cons, List.dropWhile_cons]
  rw [if_neg (by decide), if_neg (by decide)]
  simp

/-- C8: `send` is pure broadcast. While the server is running, whatever
the argument list is (callable values included — they are serialized as
`null`, never extracted as a response handler), the correlation table is
untouched and every connected client is written, in registry order, the
same frame; that frame's leading digit run is exactly "0", whose numeric
value is the reserved no-response id `0`. -/
theorem C8_send_broadcast_id_zero (s : EngineState) (args : List JVal)
    (h : s.listening = true) :
    (send s args).messagesCallbacks = s.messagesCallbacks ∧
    (send s args).outbox = s.outbox ++ s.clients.map
      (fun c => (c, '0' :: stringifyArr args ++ delim)) ∧
    takeDigits ('0' :: stringifyArr args ++ delim)
      = (['0'], stringifyArr args ++ delim) ∧
    digitsToNat ['0'] = 0 := by
  have hs : send s args = { s with outbox := (s.outbox ++
      s.clients.map (fun c => (c, '0' :: stringifyArr args ++ delim))) } := by
    rw [send.eq_def, if_neg (by rw [h]; simp)]
  exact ⟨by rw [hs], by rw [hs], takeDigits_send_frame args, by decide⟩

/-- The C8 scenario: a listening engine with two connected clients. -/
def c8State : EngineState := { baseState with clients := ["a", "b"] }

/-- The C8 argument list: an event name, a number, and a trailing
callable. -/
def c8Args : List JVal := [.jstr "announce", .jnum 7, .jfun 9]

/-- Witness for C8: broadcasting with a trailing callable still writes an
id-0 frame to both clients and registers nothing. -/
theorem C8_send_broadcast_id_zero_witness :
    c8State.listening = true ∧
    ((send c8State c8Args).messagesCallbacks = c8State.messagesCallbacks ∧
     (send c8State c8Args).outbox = c8State.outbox ++ c8State.clients.map
       (fun c => (c, '0' :: stringifyArr c8Args ++ delim)) ∧
     takeDigits ('0' :: stringifyArr c8Args ++ delim)
       = (['0'], stringifyArr c8Args ++ delim) ∧
     digitsToNat ['0'] = 0) :=
  ⟨by decide, C8_send_broadcast_id_zero c8State c8Args (by decide)⟩

/-- The C9 scenario: a listening engine whose registry holds two
clients; the registry `Map` object lives at heap address 0. -/
def c9State : RegistryRefs :=
  { heap := [["a", "b"]], clientsRef := 0, listening := true }

/-- C9 counterexample: the mapping obtained from `getClients` before
`stop()` is not a snapshot — after `stop()` runs `clients.clear()`, a
read through the previously returned reference sees the emptied
registry, not the two clients present at call time. -/
theorem C9_counterexample_live_reference :
    derefMap c9State (getClients c9State) = ["a", "b"] ∧
    derefMap (stop c9State) (getClients c9State) = [] ∧
    derefMap (stop c9State) (getClients c9State)
      ≠ derefMap c9State (getClients c9State) := by
  refine ⟨by decide, by decide, by decide⟩

/-- C9 amended: `getClients()` returns `this.clients` itself — the live
registry `Map` reference, not a copy. The returned reference is the
registry address, it is the same reference before and after `stop()`, and
reading through it after `stop()` observes the in-place `clear()`:
the mapping is empty. -/
theorem C9_getClients_live_reference (s : RegistryRefs)
    (h1 : s.listening = true) (h2 : s.clientsRef < s.heap.length) :
    getClients s = s.clientsRef ∧
    getClients (stop s) = getClients s ∧
    derefMap (stop s) (getClients s) = [] := by
  have hstop : stop s = { s with
      heap := s.heap.set s.clientsRef []
      listening := false } := by
    rw [stop.eq_def, if_neg (by rw [h1]; simp)]
  refine ⟨rfl, by rw [hstop]; rfl, ?_⟩
  rw [hstop]
  show (s.heap.set s.clientsRef []).getD s.clientsRef [] = []
  have hlen : s.clientsRef < (s.heap.set s.clientsRef []).length := by
    rw [List.length_set]
    exact h2
  rw [List.getD_eq_getElem _ _ hlen]
  exact List.getElem_set_self hlen

/-- Witness for the amended C9 at the concrete registry. -/
theorem C9_getClients_live_reference_witness :
    (c9State.listening = true ∧ c9State.clientsRef < c9State.heap.length) ∧
    (getClients c9State = c9State.clientsRef ∧
     getClients (stop c9State) = getClients c9State ∧
     derefMap (stop c9State) (getClients c9State) = []) :=
  ⟨⟨by decide, by decide⟩,
    C9_getClients_live_reference c9State (by decide) (by decide)⟩

/-- C10: `'ping'` is reserved. A decoded broadcast frame whose event name
is exactly `'ping'`, arriving from a connected client of a running
server, is answered by a fire-and-forget `'pong'` frame (id `0`) written
back to that client, and nothing else changes: in particular no wildcard
listener and no listener registered under `'ping'` is invoked (the state
is arbitrary, so it may hold any such listeners). -/
theorem C10_ping_reserved (beh : Nat → LAction) (c : String) (msg : List Char)
    (s : EngineState) (rest : List JVal)
    (hdec : decodeMessage msg = some (0, .jstr "ping" :: rest))
    (hlist : s.listening = true)
    (hcl : s.clients.contains c = true) :
    messageHandler beh c msg s
      = { s with outbox := s.outbox
          ++ [(c, natToChars 0 ++ stringifyArr [.jstr "pong"] ++ delim)] } ∧
    (messageHandler beh c msg s).invocations = s.invocations := by
  have hsend : sendTo s [] c [.jstr "pong"] none
      = some { s with outbox := s.outbox
          ++ [(c, natToChars 0 ++ stringifyArr [.jstr "pong"] ++ delim)] } := by
    rw [sendTo.eq_def, if_neg (by rw [hlist]; simp)]
    show (if ¬ s.clients.contains c = true then some s
      else some { s with outbox := s.outbox
          ++ [(c, natToChars 0 ++ stringifyArr [.jstr "pong"] ++ delim)] }) = _
    rw [if_neg (by rw [hcl]; simp)]
  have hmain : messageHandler beh c msg s
      = { s with outbox := s.outbox
          ++ [(c, natToChars 0 ++ stringifyArr [.jstr "pong"] ++ delim)] } := by
    rw [messageHandler_some beh c msg s 0 (.jstr "ping" :: rest) hdec]
    rw [if_neg (by simp)]
    rw [handleBroadcast.eq_def]
    rw [if_pos (by simp)]
    rw [hsend]
  exact ⟨hmain, by rw [hmain]⟩

/-- The C10 scenario: a listening engine with client "a", a listener
registered under the event name "ping", and a wildcard listener. -/
def c10State : EngineState :=
  { baseState with
    listeners := [("ping", [1])]
    allListeners := [2] }

/-- Witness for C10: even with a "ping" listener and a wildcard listener
registered, the inbound ping frame only produces the pong write. -/
theorem C10_ping_reserved_witness :
    (decodeMessage ("0[\"ping\"]".toList)
        = some (0, JVal.jstr "ping" :: []) ∧
      c10State.listening = true ∧ c10State.clients.contains "a" = true) ∧
    (messageHandler behNoop "a" ("0[\"ping\"]".toList) c10State
        = { c10State with outbox := c10State.outbox
            ++ [("a", natToChars 0 ++ stringifyArr [.jstr "pong"] ++ delim)] } ∧
     (messageHandler behNoop "a" ("0[\"ping\"]".toList) c10State).invocations
        = c10State.invocations) :=
  ⟨⟨by decide, by decide, by decide⟩,
   C10_ping_reserved behNoop "a" ("0[\"ping\"]".toList) c10State []
     (by decide) (by decide) (by decide)⟩

end TcpEngine
